import Mathlib

set_option maxRecDepth 1000000

/-!
Verification of the `datastore` package (log-structured key-value store) and
the load-balancer selector of this repository, against its specification.

Go strings and byte slices are modelled as `List Nat` (one `Nat` per byte);
`int64` values (file sizes, offsets, segment indices) are modelled as `Int`;
`uint32` truncation is made explicit with `% 2^32`.  Fallible operations
return `Except DbErr`; a Go runtime panic (slice index out of range) is
modelled by the distinguished error `DbErr.panicSlice`.
-/

/-- Decidable equality for `Except`, so outcomes can be compared by `decide`. -/
instance {ε α : Type} [DecidableEq ε] [DecidableEq α] : DecidableEq (Except ε α) := fun x y =>
  match x, y with
  | .ok a, .ok b =>
    if h : a = b then .isTrue (by rw [h]) else .isFalse (by intro hc; cases hc; exact h rfl)
  | .error a, .error b =>
    if h : a = b then .isTrue (by rw [h]) else .isFalse (by intro hc; cases hc; exact h rfl)
  | .ok _, .error _ => .isFalse (by intro hc; cases hc)
  | .error _, .ok _ => .isFalse (by intro hc; cases hc)

namespace Datastore

/-- A byte string (Go `string` / `[]byte`): one `Nat` per byte. -/
abbrev Bytes := List Nat

/-! ## Little-endian 32-bit integers (`encoding/binary`) -/

/-- The four bytes written by `binary.LittleEndian.PutUint32` for `n`
(the Go conversion `uint32(n)` truncates, hence the explicit `% 2^32`). -/
def u32le (n : Nat) : Bytes :=
  [n % 256, n / 256 % 256, n / 65536 % 256, n / 16777216 % 256]

/-- Model of `binary.LittleEndian.Uint32` over the first four bytes of `l`.
Callers in the source only invoke it when at least four bytes are present;
the `getD` default is never reached on those paths. -/
def u32dec (l : Bytes) : Nat :=
  l.getD 0 0 + 256 * l.getD 1 0 + 65536 * l.getD 2 0 + 16777216 * l.getD 3 0

/-! ## SHA-1 (`crypto/sha1`), needed because `Entry.calculateHash` hex-encodes
the SHA-1 digest of the value.  This is the standard FIPS 180 algorithm that
the Go standard library implements; all words are `Nat` kept below `2^32`. -/

/-- Rotate a 32-bit word left by `n`. -/
def rotl (x n : Nat) : Nat := ((x <<< n) ||| (x >>> (32 - n))) % 4294967296

/-- Big-endian 32-bit word of a byte list at byte offset `i`. -/
def beWord (l : Bytes) (i : Nat) : Nat :=
  l.getD i 0 * 16777216 + l.getD (i + 1) 0 * 65536 + l.getD (i + 2) 0 * 256 + l.getD (i + 3) 0

/-- Big-endian bytes of a 32-bit word. -/
def be32 (n : Nat) : Bytes :=
  [n / 16777216 % 256, n / 65536 % 256, n / 256 % 256, n % 256]

/-- Big-endian bytes of a 64-bit word (the length field of SHA-1 padding). -/
def be64 (n : Nat) : Bytes :=
  [n / 72057594037927936 % 256, n / 281474976710656 % 256, n / 1099511627776 % 256,
   n / 4294967296 % 256, n / 16777216 % 256, n / 65536 % 256, n / 256 % 256, n % 256]

/-- SHA-1 message padding: `0x80`, zeros to 56 mod 64, then the bit length. -/
def sha1Pad (msg : Bytes) : Bytes :=
  msg ++ [128] ++ List.replicate ((119 - msg.length % 64) % 64) 0 ++ be64 (8 * msg.length)

/-- Structural worker for `toBlocks`: the fuel only bounds the recursion
depth (one unit per block, so the message length is always enough). -/
def toBlocksF : Nat → Bytes → List Bytes
  | _, [] => []
  | 0, _ => []
  | fuel + 1, l => l.take 64 :: toBlocksF fuel (l.drop 64)

/-- Split a (padded) message into 64-byte blocks. -/
def toBlocks (l : Bytes) : List Bytes := toBlocksF l.length l

/-- The 16 initial message-schedule words of one block. -/
def initWords (block : Bytes) : List Nat :=
  (List.range 16).map (fun i => beWord block (4 * i))

/-- Extend the 16 schedule words to 80. -/
def extendWords (w : List Nat) : List Nat :=
  (List.range 64).foldl
    (fun w _ =>
      w ++ [rotl (((w.getD (w.length - 3) 0 ^^^ w.getD (w.length - 8) 0) ^^^
                   w.getD (w.length - 14) 0) ^^^ w.getD (w.length - 16) 0) 1])
    w

/-- The SHA-1 round function. -/
def sha1F (i b c d : Nat) : Nat :=
  if i < 20 then (b &&& c) ||| ((b ^^^ 4294967295) &&& d)
  else if i < 40 then (b ^^^ c) ^^^ d
  else if i < 60 then ((b &&& c) ||| (b &&& d)) ||| (c &&& d)
  else (b ^^^ c) ^^^ d

/-- The SHA-1 round constants. -/
def sha1K (i : Nat) : Nat :=
  if i < 20 then 1518500249
  else if i < 40 then 1859775393
  else if i < 60 then 2400959708
  else 3395469782

/-- One SHA-1 round. -/
def sha1Round (st : Nat × Nat × Nat × Nat × Nat) (i w : Nat) : Nat × Nat × Nat × Nat × Nat :=
  match st with
  | (a, b, c, d, e) =>
    ((rotl a 5 + sha1F i b c d + e + sha1K i + w) % 4294967296, a, rotl b 30, c, d)

/-- Process one 64-byte block. -/
def sha1Block (h : Nat × Nat × Nat × Nat × Nat) (block : Bytes) : Nat × Nat × Nat × Nat × Nat :=
  let ws := extendWords (initWords block)
  match h, (List.range 80).foldl (fun st i => sha1Round st i (ws.getD i 0)) h with
  | (h0, h1, h2, h3, h4), (a, b, c, d, e) =>
    ((h0 + a) % 4294967296, (h1 + b) % 4294967296, (h2 + c) % 4294967296,
     (h3 + d) % 4294967296, (h4 + e) % 4294967296)

/-- The SHA-1 initial state. -/
def sha1Init : Nat × Nat × Nat × Nat × Nat :=
  (1732584193, 4023233417, 2562383102, 271733878, 3285377520)

/-- The 20-byte SHA-1 digest of a message. -/
def sha1Bytes (msg : Bytes) : Bytes :=
  match (toBlocks (sha1Pad msg)).foldl sha1Block sha1Init with
  | (h0, h1, h2, h3, h4) => be32 h0 ++ be32 h1 ++ be32 h2 ++ be32 h3 ++ be32 h4

/-- Lowercase hex digit byte for a nibble, as produced by Go `fmt.Sprintf("%x", …)`. -/
def hexDigit (n : Nat) : Nat := if n < 10 then 48 + n else 87 + n

/-- Lowercase hex encoding of a byte list, two digits per byte. -/
def bytesToHex : Bytes → Bytes
  | [] => []
  | b :: rest => hexDigit (b / 16) :: hexDigit (b % 16) :: bytesToHex rest

/-- Model of `calculateHash` / `Entry.calculateHash`: the 40-character lowercase hex
SHA-1 digest of `value` (`fmt.Sprintf("%x", sha1.Sum(value))`). -/
def calculateHash (value : Bytes) : Bytes := bytesToHex (sha1Bytes value)

/-! ## Entry codec (`entry.go`) -/

/-- A record: `type Entry struct { key, value, hash string }`. -/
structure Entry where
  key : Bytes
  value : Bytes
  hash : Bytes
deriving Repr, DecidableEq

/-- Errors of the model.  `eof` is `io.EOF`, `unexpectedEof` is
`io.ErrUnexpectedEOF` (a partial `io.ReadFull`), `panicSlice` models a Go
runtime panic from a slice access out of range (the process crashes rather
than receiving an error value), `fileNotFound` and `seekNeg` are `os` =
level I/O errors, `outOfFuel` is a model artifact proved unreachable,
`notFound` is `ErrNotFound` and `hashMismatch` is `ErrHashMismatch`. -/
inductive DbErr where
  | eof
  | unexpectedEof
  | panicSlice
  | fileNotFound
  | seekNeg
  | outOfFuel
  | notFound
  | hashMismatch
deriving Repr, DecidableEq

/-- Model of `Entry.Encode`: the hash is recomputed from `value` (the stored `hash`
field is ignored), and the frame is
`total_size ∥ key_len ∥ key ∥ val_len ∥ value ∥ hash` with little-endian
`uint32` length fields.  Go writes with `copy` into a buffer of exactly
`size` bytes; since every piece has exactly the length accounted for in
`size`, that equals this concatenation. -/
def Entry.encode (e : Entry) : Bytes :=
  let kl := e.key.length
  let vl := e.value.length
  let hash := calculateHash e.value
  let hl := hash.length
  let size := kl + vl + hl + 12
  u32le size ++ u32le kl ++ e.key ++ u32le vl ++ e.value ++ hash

/-- Model of `Entry.GetLength`: `getLength(key, value) + int64(len(hash))`
`= len(key) + len(value) + 12 + len(hash)`. -/
def Entry.getLength (e : Entry) : Int :=
  ((e.key.length + e.value.length + 12 : Nat) : Int) + (e.hash.length : Int)

/-- Model of `Entry.Decode`.  Each guard corresponds to a Go slice access that would
panic when the frame is shorter than the length fields demand:
`input[4:]`/`Uint32` needs 8 bytes, `input[8:kl+8]` needs `kl+8`,
`input[kl+8:]`/`Uint32` needs `kl+12`, and `input[kl+12:kl+12+vl]` needs
`kl+12+vl`. -/
def Entry.decode (input : Bytes) : Except DbErr Entry :=
  if input.length < 8 then .error .panicSlice
  else
    let kl := u32dec (input.drop 4)
    if input.length < kl + 8 then .error .panicSlice
    else if input.length < kl + 12 then .error .panicSlice
    else
      let vl := u32dec (input.drop (kl + 8))
      if input.length < kl + 12 + vl then .error .panicSlice
      else .ok ⟨(input.drop 8).take kl, (input.drop (kl + 12)).take vl,
                input.drop (kl + 12 + vl)⟩

/-- Model of `readNext`: peek four bytes (fewer available means `io.EOF`), read
`total_size` bytes in full (`io.ReadFull`; a shortfall is
`io.ErrUnexpectedEOF`).  The returned frame includes the size field itself;
exactly `total_size` bytes are consumed from the stream. -/
def readNext (l : Bytes) : Except DbErr Bytes :=
  if l.length < 4 then .error .eof
  else
    let size := u32dec l
    if l.length < size then .error .unexpectedEof
    else .ok (l.take size)

/-! ## Segments, directory and database (`db.go`) -/

/-- Model of `hashIndex`: Go's `map[string]int64`, modelled as an association list
with distinct keys.  Go map iteration order is unspecified; this model
iterates in insertion order (every claim proved here is independent of the
iteration order, since each key occurs at most once). -/
abbrev Index := List (Bytes × Int)

/-- Map lookup. -/
def idxGet : Index → Bytes → Option Int
  | [], _ => none
  | (k, v) :: rest, q => if k = q then some v else idxGet rest q

/-- Map update `index[key] = v` (overwrites an existing binding). -/
def idxSet : Index → Bytes → Int → Index
  | [], q, v => [(q, v)]
  | (k, w) :: rest, q, v => if k = q then (q, v) :: rest else (k, w) :: idxSet rest q v

/-- A `Segment`: its file path `current-data<segIdx>` is represented by the
trailing integer `segIdx`, plus the in-memory key→offset index. -/
structure Segment where
  segIdx : Int
  index : Index
deriving Repr, DecidableEq

/-- The directory: file name (trailing integer of `current-data<N>`) to file
contents.  All files the store ever creates have this name shape. -/
abbrev Dir := List (Int × Bytes)

/-- Contents of file `i`, if it exists. -/
def dirGet : Dir → Int → Option Bytes
  | [], _ => none
  | (i, f) :: rest, j => if i = j then some f else dirGet rest j

/-- Append bytes to existing file `j` (`O_APPEND` write). -/
def dirAppend : Dir → Int → Bytes → Dir
  | [], _, _ => []
  | (i, f) :: rest, j, bs => if i = j then (i, f ++ bs) :: rest else (i, f) :: dirAppend rest j bs

/-- Model of `O_CREATE`: create file `i` empty if absent, keep it unchanged if present. -/
def dirCreate (d : Dir) (i : Int) : Dir :=
  if (dirGet d i).isSome then d else d ++ [(i, [])]

/-- Model of `os.Remove` of file `j`. -/
def dirRemove : Dir → Int → Dir
  | [], _ => []
  | (i, f) :: rest, j => if i = j then dirRemove rest j else (i, f) :: dirRemove rest j

/-- The `Db` state.  `outIdx` is the file the `out` handle appends to; the
source keeps `out` pointing at the last segment's file at all times. -/
structure Db where
  dir : Dir
  segmentSize : Int
  lastSegmentIndex : Int
  outIdx : Int
  segments : List Segment
deriving Repr, DecidableEq

/-- Model of `createSegment`: bump `lastSegmentIndex`, create the file, retarget the
`out` handle, and append a fresh segment to the roster. -/
def Db.createSegment (db : Db) : Db :=
  let newIdx := db.lastSegmentIndex + 1
  { db with
    lastSegmentIndex := newIdx
    dir := dirCreate db.dir newIdx
    outIdx := newIdx
    segments := db.segments ++ [⟨newIdx, []⟩] }

/-- Model of `setKey` applied to `getLastSegment().index` (the roster is never empty
in reachable states; on an empty roster the source would dereference nil). -/
def setLastIndex : List Segment → Bytes → Int → List Segment
  | [], _, _ => []
  | [s], k, pos => [{ s with index := idxSet s.index k pos }]
  | s :: rest, k, pos => s :: setLastIndex rest k pos

/-- One operation of the put executor (`startPutRoutine` body): seek-to-end
for the current size, roll over when `currentSize + entry.GetLength() >
segmentSize`, append the encoded record, and record its start offset
(`seek-to-end − n`) under the key in the last segment's index.  `Put` built
the entry with `hash = calculateHash(value)`. -/
def Db.putOp (db : Db) (k v : Bytes) : Db :=
  let e : Entry := ⟨k, v, calculateHash v⟩
  let currentSize : Int := (((dirGet db.dir db.outIdx).getD []).length : Int)
  let db1 := if currentSize + e.getLength > db.segmentSize then db.createSegment else db
  let enc := e.encode
  let dir2 := dirAppend db1.dir db1.outIdx enc
  let currentOffset : Int := (((dirGet dir2 db1.outIdx).getD []).length : Int)
  { db1 with dir := dir2, segments := setLastIndex db1.segments k (currentOffset - enc.length) }

/-- The scan of `getPos`: iterate segments from newest (end of the roster)
to oldest; first index hit wins. -/
def findPos : List Segment → Bytes → Option (Int × Int)
  | [], _ => none
  | s :: rest, k =>
    match findPos rest k with
    | some r => some r
    | none => (idxGet s.index k).map (fun pos => (s.segIdx, pos))

/-- Model of `getPos`: position of `key`, or `ErrNotFound` when no index has it. -/
def Db.getPos (db : Db) (k : Bytes) : Except DbErr (Int × Int) :=
  match findPos db.segments k with
  | some r => .ok r
  | none => .error .notFound

/-- Model of `Segment.getFromSegment`: open the file, seek to `position` (a negative
offset is a seek error; seeking past EOF succeeds and the subsequent read
returns `io.EOF`), read one frame, decode it. -/
def getFromSegment (d : Dir) (segIdx : Int) (position : Int) : Except DbErr Entry :=
  match dirGet d segIdx with
  | none => .error .fileNotFound
  | some f =>
    if position < 0 then .error .seekNeg
    else
      match readNext (f.drop position.toNat) with
      | .error e => .error e
      | .ok data => Entry.decode data

/-- Model of `Db.Get`: locate, read, verify `calculateHash(value) == hash`. -/
def Db.get (db : Db) (k : Bytes) : Except DbErr Bytes :=
  match db.getPos k with
  | .error e => .error e
  | .ok (si, pos) =>
    match getFromSegment db.dir si pos with
    | .error e => .error e
    | .ok e => if calculateHash e.value ≠ e.hash then .error .hashMismatch else .ok e.value

/-! ## Compaction (`Compact`) -/

/-- Membership test in the `keysToKeep` map. -/
def keepHas : List (Bytes × Int × Int) → Bytes → Bool
  | [], _ => false
  | (k, _, _) :: rest, q => k == q || keepHas rest q

/-- Record every key of one sealed segment's index in `keysToKeep`, keeping
only the first encounter. -/
def keepAdd (acc : List (Bytes × Int × Int)) (segIdx : Int) : Index → List (Bytes × Int × Int)
  | [] => acc
  | (k, pos) :: rest => keepAdd (if keepHas acc k then acc else acc ++ [(k, segIdx, pos)]) segIdx rest

/-- Model of `keysToKeep`: iterate the sealed segments from newest to oldest (the
argument is the sealed roster already reversed), recording each key only on
first encounter. -/
def buildKeep (revSealed : List Segment) : List (Bytes × Int × Int) :=
  revSealed.foldl (fun acc s => keepAdd acc s.segIdx s.index) []

/-- The compaction write loop: for each kept key read the record (a failed
read skips the key), restore `entry.key = key`, re-encode (which refreshes
the hash from the value) and append, recording the new offset.  Returns the
new file's contents and the new segment's index. -/
def compactWrite (d : Dir) (keep : List (Bytes × Int × Int)) : Bytes × Index :=
  keep.foldl
    (fun acc kp =>
      match getFromSegment d kp.2.1 kp.2.2 with
      | .error _ => acc
      | .ok e =>
        let enc := (Entry.mk kp.1 e.value e.hash).encode
        (acc.1 ++ enc, idxSet acc.2 kp.1 (acc.1.length : Int)))
    ([], [])

/-- Remove the files of the given segments from the directory. -/
def removeSegs (d : Dir) (segs : List Segment) : Dir :=
  segs.foldl (fun d' s => dirRemove d' s.segIdx) d

/-- Model of `Compact`: with fewer than two segments do nothing; otherwise create the
next-indexed file, fold all sealed segments into it (latest-wins), replace
the roster by `[newSegment, activeSegment]` and delete the old sealed
files.  The write loop reads from the directory as it stands after the new
file was created (in reachable states no kept key ever points at it). -/
def Db.compact (db : Db) : Db :=
  if db.segments.length < 2 then db
  else
    let segmentsToCompact := db.segments.dropLast
    let activeSegment := db.segments.getLastD ⟨0, []⟩
    let newIdx := db.lastSegmentIndex + 1
    let dir1 := dirCreate db.dir newIdx
    let cw := compactWrite dir1 (buildKeep segmentsToCompact.reverse)
    let dir2 := dirAppend dir1 newIdx cw.1
    { db with
      dir := removeSegs dir2 segmentsToCompact
      lastSegmentIndex := newIdx
      segments := [⟨newIdx, cw.2⟩, activeSegment] }

/-! ## Recovery (`recoverAll`, `recoverSegment`) and `NewDb` -/

/-- The `recoverSegment` read loop, with explicit fuel: read one frame
(`io.EOF` ends the loop normally, any other read error aborts), decode it
(a malformed frame panics inside `Decode`, modelled as `panicSlice`),
record the key at the frame's start offset, advance by the frame length.
`recoverScan_sufficient` proves fuel `length + 1` always suffices. -/
def recoverScan : Nat → Bytes → Int → Index → Option (Except DbErr Index)
  | 0, _, _, _ => none
  | fuel + 1, l, offset, idx =>
    match readNext l with
    | .error .eof => some (.ok idx)
    | .error e => some (.error e)
    | .ok data =>
      match Entry.decode data with
      | .error e => some (.error e)
      | .ok e => recoverScan fuel (l.drop data.length) (offset + (data.length : Int))
                   (idxSet idx e.key offset)

/-- Model of `recoverSegment` on a file's contents (the `outOfFuel` default is dead
code by `recoverScan_sufficient`). -/
def recoverSegment (contents : Bytes) : Except DbErr Index :=
  (recoverScan (contents.length + 1) contents 0 []).getD (.error .outOfFuel)

/-- Insertion step of the recovery sort. -/
def insertByIdx (x : Int × Bytes) : Dir → Dir
  | [] => [x]
  | y :: rest => if x.1 < y.1 then x :: y :: rest else y :: insertByIdx x rest

/-- Model of `recoverAll` sorts the segment files ascending by their trailing
integer. -/
def sortByIdx : Dir → Dir
  | [] => []
  | x :: rest => insertByIdx x (sortByIdx rest)

/-- The per-file loop of `recoverAll`: scan each file in ascending-index
order, append its segment to the roster, track the maximum index. -/
def recoverAllGo : Dir → List Segment → Int → Except DbErr (List Segment × Int)
  | [], segs, lastIdx => .ok (segs, lastIdx)
  | (i, contents) :: rest, segs, lastIdx =>
    match recoverSegment contents with
    | .error e => .error e
    | .ok idx => recoverAllGo rest (segs ++ [⟨i, idx⟩]) (if i > lastIdx then i else lastIdx)

/-- Model of `recoverAll`, starting from `lastSegmentIndex = -1`. -/
def recoverAll (d : Dir) : Except DbErr (List Segment × Int) :=
  recoverAllGo (sortByIdx d) [] (-1)

/-- Model of `NewDb`: recover; with no segments create `S₀`, otherwise open the
highest-indexed file (`O_APPEND|O_WRONLY`, no create) as the write target. -/
def newDb (d : Dir) (segmentSize : Int) : Except DbErr Db :=
  match recoverAll d with
  | .error e => .error e
  | .ok (segs, lastIdx) =>
    if segs = [] then .ok (Db.createSegment ⟨d, segmentSize, lastIdx, 0, []⟩)
    else
      let lastSegment := segs.getLastD ⟨0, []⟩
      match dirGet d lastSegment.segIdx with
      | none => .error .fileNotFound
      | some _ => .ok ⟨d, segmentSize, lastIdx, lastSegment.segIdx, segs⟩

/-- The state `NewDb` produces on an empty directory. -/
def freshDb (segmentSize : Int) : Db :=
  ⟨[(0, [])], segmentSize, 0, 0, [⟨0, []⟩]⟩

/-- Run a sequence of puts through the (serialized) put executor. -/
def runPuts (db : Db) (ops : List (Bytes × Bytes)) : Db :=
  ops.foldl (fun d p => d.putOp p.1 p.2) db

/-- Latest-wins reference semantics of a put history. -/
def latestVal : List (Bytes × Bytes) → Bytes → Option Bytes
  | [], _ => none
  | (k, v) :: rest, q =>
    match latestVal rest q with
    | some r => some r
    | none => if k = q then some v else none

/-- Wrap the reference semantics as a `Get` outcome. -/
def exceptOf : Option Bytes → Except DbErr Bytes
  | some v => .ok v
  | none => .error .notFound


/-! ## Proof-layer predicates -/

/-- The bound under which all length fields of a frame survive the `uint32`
truncation: the encoded frame length fits in a `uint32`. -/
def WFbound (k v : Bytes) : Prop := k.length + v.length + 52 < 4294967296

/-- A well-formed frame for key `k` and value `v` starting at byte offset
`pos` of file `f`.  Every index entry of a reachable database points at
such a frame. -/
def GoodFrame (f : Bytes) (pos : Int) (k v : Bytes) : Prop :=
  0 ≤ pos ∧ WFbound k v ∧
    ∃ rest, f.drop pos.toNat = (Entry.mk k v (calculateHash v)).encode ++ rest

/-- All keys and values of a put history keep every frame-length field below
the `uint32` truncation bound. -/
def BoundedHist (hist : List (Bytes × Bytes)) : Prop :=
  ∀ p ∈ hist, WFbound p.1 p.2

/-- The invariant tying a database state to the put history that produced
it: the roster is non-empty, the write handle targets the last segment's
file, the directory holds exactly the roster's files, segment numbers are
bounded by `lastSegmentIndex` and pairwise distinct, every index entry
points at a well-formed frame for its key, and `Get` agrees with the
latest-wins reference semantics of the history. -/
structure Inv (hist : List (Bytes × Bytes)) (db : Db) : Prop where
  segsNE : db.segments ≠ []
  outLast : db.outIdx = (db.segments.getLastD ⟨0, []⟩).segIdx
  keysEq : db.dir.map Prod.fst = db.segments.map Segment.segIdx
  idxLe : ∀ s ∈ db.segments, s.segIdx ≤ db.lastSegmentIndex
  nodup : (db.segments.map Segment.segIdx).Nodup
  frames : ∀ s ∈ db.segments, ∀ k pos, idxGet s.index k = some pos →
    ∃ v f, dirGet db.dir s.segIdx = some f ∧ GoodFrame f pos k v
  sem : ∀ k, db.get k = exceptOf (latestVal hist k)

/-- Lookup in the `keysToKeep` association (first binding of a key wins). -/
def keepFind : List (Bytes × Int × Int) → Bytes → Option (Int × Int)
  | [], _ => none
  | (k, si, pos) :: rest, q => if k = q then some (si, pos) else keepFind rest q

/-- Scan of a roster given newest first (head first), the mirror image of
`findPos`. -/
def findPosRev : List Segment → Bytes → Option (Int × Int)
  | [], _ => none
  | s :: rest, q =>
    match (idxGet s.index q).map (fun pos => (s.segIdx, pos)) with
    | some r => some r
    | none => findPosRev rest q

/-- Consistency of one frame's length fields, read straight off the frame
bytes: the frame is at least the eight bytes of the two leading length
fields, and the lengths it announces fit inside it.  `Entry.Decode` panics
exactly on the frames that violate this. -/
def frameConsistent (d : Bytes) : Prop :=
  8 ≤ d.length ∧ u32dec (d.drop 4) + 12 + u32dec (d.drop (u32dec (d.drop 4) + 8)) ≤ d.length

instance (k v : Bytes) : Decidable (WFbound k v) :=
  inferInstanceAs (Decidable (k.length + v.length + 52 < 4294967296))

instance (hist : List (Bytes × Bytes)) : Decidable (BoundedHist hist) :=
  inferInstanceAs (Decidable (∀ p ∈ hist, WFbound p.1 p.2))

end Datastore

namespace Balancer

/-- Model of the traffic read `b.serverTraffic[server]` in `chooseServer`
(`cmd/lb/balancer.go`): `serverTraffic` is a Go `map[string]int64`, so a
missing entry reads as the zero value 0.  The int64 counters are modelled
as `Int`: the selector only reads and compares them, so no arithmetic
overflow can arise in this function. -/
def trafficOf (traffic : List (String × Int)) (s : String) : Int :=
  match traffic with
  | [] => 0
  | (t, n) :: rest => if t = s then n else trafficOf rest s

/-- Model of one iteration of the loop body of `Balancer.chooseServer`
(`cmd/lb/balancer.go`).  The accumulator is the pair
`(minTrafficServer, minTraffic)`; the body reads
`traffic := b.serverTraffic[server]` and replaces the accumulator when
`minTraffic == -1 || traffic < minTraffic`. -/
def chooseStep (t : List (String × Int)) (acc : String × Int) (server : String) :
    String × Int :=
  if acc.2 = -1 ∨ trafficOf t server < acc.2 then (server, trafficOf t server) else acc

/-- Model of `Balancer.chooseServer` (`cmd/lb/balancer.go`): an empty
healthy pool returns the empty string; otherwise the loop runs from the Go
zero values `minTrafficServer = ""` and the sentinel `minTraffic = -1`,
folding `chooseStep` over `healthyPool`, and returns the server held by
the final accumulator. -/
def chooseServer (healthy : List String) (traffic : List (String × Int)) : String :=
  if healthy.length = 0 then ""
  else (healthy.foldl (chooseStep traffic) ("", -1)).1

end Balancer

namespace Datastore

/-! ## Basic facts about the byte-level codec -/

theorem u32le_length (n : Nat) : (u32le n).length = 4 := rfl

theorem u32dec_cons (b0 b1 b2 b3 : Nat) (rest : Bytes) :
    u32dec (b0 :: b1 :: b2 :: b3 :: rest) = b0 + 256 * b1 + 65536 * b2 + 16777216 * b3 := by
  simp [u32dec, List.getD]

theorem u32dec_u32le_append (n : Nat) (rest : Bytes) :
    u32dec (u32le n ++ rest) = n % 4294967296 := by
  show u32dec (n % 256 :: n / 256 % 256 :: n / 65536 % 256 :: n / 16777216 % 256 :: rest) = _
  rw [u32dec_cons]
  omega

theorem bytesToHex_length (l : Bytes) : (bytesToHex l).length = 2 * l.length := by
  induction l with
  | nil => rfl
  | cons b rest ih => simp [bytesToHex, ih]; ring

theorem sha1Bytes_length (m : Bytes) : (sha1Bytes m).length = 20 := by
  unfold sha1Bytes
  rcases (toBlocks (sha1Pad m)).foldl sha1Block sha1Init with ⟨a, b, c, d, e⟩
  simp [be32]

theorem calculateHash_length (v : Bytes) : (calculateHash v).length = 40 := by
  unfold calculateHash
  rw [bytesToHex_length, sha1Bytes_length]

theorem encode_length (e : Entry) : e.encode.length = e.key.length + e.value.length + 52 := by
  unfold Entry.encode
  simp [u32le_length, calculateHash_length]
  omega

theorem encode_hash_irrel (k v h1 h2 : Bytes) :
    (Entry.mk k v h1).encode = (Entry.mk k v h2).encode := rfl

theorem encode_ne_nil (e : Entry) : e.encode ≠ [] := by
  intro h
  have hl := encode_length e
  rw [h] at hl
  simp only [List.length_nil] at hl
  omega


theorem readNext_encode (e : Entry) (rest : Bytes)
    (hb : WFbound e.key e.value) :
    readNext (e.encode ++ rest) = .ok e.encode := by
  have hlen := encode_length e
  have hsz : u32dec (e.encode ++ rest) = e.encode.length := by
    show u32dec ((u32le (e.key.length + e.value.length + (calculateHash e.value).length + 12) ++ _) ++ rest) = _
    rw [List.append_assoc, u32dec_u32le_append, calculateHash_length, hlen]
    have : e.key.length + e.value.length + 40 + 12 = e.key.length + e.value.length + 52 := by omega
    rw [this, Nat.mod_eq_of_lt hb]
  unfold readNext
  rw [if_neg (by simp [hlen]; omega)]
  simp only [hsz]
  rw [if_neg (by simp)]
  congr 1
  exact List.take_left e.encode rest

theorem decode_encode (e : Entry) (hb : WFbound e.key e.value) :
    Entry.decode e.encode = .ok ⟨e.key, e.value, calculateHash e.value⟩ := by
  have hlen := encode_length e
  have henc : e.encode =
      u32le (e.key.length + e.value.length + (calculateHash e.value).length + 12) ++
        (u32le e.key.length ++ (e.key ++ (u32le e.value.length ++ (e.value ++ calculateHash e.value)))) := by
    show u32le _ ++ u32le _ ++ e.key ++ u32le _ ++ e.value ++ calculateHash e.value = _
    simp [List.append_assoc]
  have hd4 : e.encode.drop 4 =
      u32le e.key.length ++ (e.key ++ (u32le e.value.length ++ (e.value ++ calculateHash e.value))) := by
    rw [henc]
    exact List.drop_left
      (u32le (e.key.length + e.value.length + (calculateHash e.value).length + 12))
      (u32le e.key.length ++ (e.key ++ (u32le e.value.length ++ (e.value ++ calculateHash e.value))))
  have hkl : u32dec (e.encode.drop 4) = e.key.length := by
    rw [hd4, u32dec_u32le_append, Nat.mod_eq_of_lt (by unfold WFbound at hb; omega)]
  have hd8 : e.encode.drop 8 = e.key ++ (u32le e.value.length ++ (e.value ++ calculateHash e.value)) := by
    have h48 : e.encode.drop 8 = (e.encode.drop 4).drop 4 := by rw [List.drop_drop]
    rw [h48, hd4]
    exact List.drop_left (u32le e.key.length) _
  have hdk8 : e.encode.drop (e.key.length + 8) =
      u32le e.value.length ++ (e.value ++ calculateHash e.value) := by
    have hsplit : e.encode.drop (e.key.length + 8) = (e.encode.drop 8).drop e.key.length := by
      rw [List.drop_drop]
      try (congr 1; omega)
    rw [hsplit, hd8]
    exact List.drop_left e.key _
  have hvl : u32dec (e.encode.drop (e.key.length + 8)) = e.value.length := by
    rw [hdk8, u32dec_u32le_append, Nat.mod_eq_of_lt (by unfold WFbound at hb; omega)]
  have hdk12 : e.encode.drop (e.key.length + 12) = e.value ++ calculateHash e.value := by
    have hsplit : e.encode.drop (e.key.length + 12) = (e.encode.drop (e.key.length + 8)).drop 4 := by
      rw [List.drop_drop]
    rw [hsplit, hdk8]
    exact List.drop_left (u32le e.value.length) _
  have hdkv : e.encode.drop (e.key.length + 12 + e.value.length) = calculateHash e.value := by
    have hsplit : e.encode.drop (e.key.length + 12 + e.value.length) =
        (e.encode.drop (e.key.length + 12)).drop e.value.length := by
      rw [List.drop_drop]
    rw [hsplit, hdk12]
    exact List.drop_left e.value _
  have hkey : (e.encode.drop 8).take e.key.length = e.key := by
    rw [hd8]; exact List.take_left _ _
  have hval : (e.encode.drop (e.key.length + 12)).take e.value.length = e.value := by
    rw [hdk12]; exact List.take_left _ _
  unfold Entry.decode
  rw [if_neg (by omega)]
  simp only [hkl]
  rw [if_neg (by omega), if_neg (by omega)]
  simp only [hvl]
  rw [if_neg (by omega)]
  rw [hkey, hval, hdkv]

end Datastore

namespace Datastore

/-! ## Frames inside files -/


theorem GoodFrame.pos_le {f : Bytes} {pos : Int} {k v : Bytes}
    (h : GoodFrame f pos k v) : pos.toNat ≤ f.length := by
  obtain ⟨hpos, hb, rest, hdrop⟩ := h
  by_contra hgt
  have hnil : f.drop pos.toNat = [] := List.drop_eq_nil_of_le (by omega)
  rw [hnil] at hdrop
  have hne := encode_ne_nil (Entry.mk k v (calculateHash v))
  cases henc : (Entry.mk k v (calculateHash v)).encode with
  | nil => exact hne henc
  | cons a l => rw [henc] at hdrop; simp at hdrop

theorem GoodFrame.append {f : Bytes} {pos : Int} {k v : Bytes} (g : Bytes)
    (h : GoodFrame f pos k v) : GoodFrame (f ++ g) pos k v := by
  have hle := h.pos_le
  obtain ⟨hpos, hb, rest, hdrop⟩ := h
  refine ⟨hpos, hb, rest ++ g, ?_⟩
  rw [List.drop_append_of_le_length hle, hdrop, List.append_assoc]

theorem GoodFrame.here (f : Bytes) (k v h0 : Bytes) (hb : WFbound k v) :
    GoodFrame (f ++ (Entry.mk k v h0).encode) (f.length : Int) k v := by
  refine ⟨Int.ofNat_nonneg _, hb, [], ?_⟩
  rw [Int.toNat_ofNat, List.append_nil,
    encode_hash_irrel k v h0 (calculateHash v)]
  exact List.drop_left _ _

theorem getFromSegment_frame {d : Dir} {si pos : Int} {k v f : Bytes}
    (hf : dirGet d si = some f) (hg : GoodFrame f pos k v) :
    getFromSegment d si pos = .ok ⟨k, v, calculateHash v⟩ := by
  obtain ⟨hpos, hb, rest, hdrop⟩ := hg
  have hread : readNext (f.drop pos.toNat) = .ok (Entry.mk k v (calculateHash v)).encode := by
    rw [hdrop]; exact readNext_encode _ rest hb
  unfold getFromSegment
  simp only [hf, if_neg (not_lt.mpr hpos), hread]
  exact decode_encode ⟨k, v, calculateHash v⟩ hb

/-! ## Index lemmas -/

theorem idxGet_idxSet_self (idx : Index) (k : Bytes) (v : Int) :
    idxGet (idxSet idx k v) k = some v := by
  induction idx with
  | nil => simp [idxSet, idxGet]
  | cons p rest ih =>
    obtain ⟨k', w⟩ := p
    by_cases h : k' = k
    · simp [idxSet, h, idxGet]
    · simp [idxSet, h, idxGet, ih]

theorem idxGet_idxSet_ne (idx : Index) {k q : Bytes} (v : Int) (h : k ≠ q) :
    idxGet (idxSet idx k v) q = idxGet idx q := by
  induction idx with
  | nil => simp [idxSet, idxGet, h]
  | cons p rest ih =>
    obtain ⟨k', w⟩ := p
    by_cases h' : k' = k
    · subst h'; simp [idxSet, idxGet, h, ih]
    · simp [idxSet, h', idxGet, ih]

/-! ## Directory lemmas -/

theorem dirGet_append (d1 d2 : Dir) (i : Int) :
    dirGet (d1 ++ d2) i =
      match dirGet d1 i with
      | some f => some f
      | none => dirGet d2 i := by
  induction d1 with
  | nil => simp [dirGet]
  | cons p rest ih =>
    obtain ⟨j, f⟩ := p
    by_cases h : j = i
    · simp [dirGet, h]
    · simp [dirGet, h, ih]

theorem dirGet_eq_none_iff (d : Dir) (i : Int) :
    dirGet d i = none ↔ i ∉ d.map Prod.fst := by
  induction d with
  | nil => simp [dirGet]
  | cons p rest ih =>
    obtain ⟨j, f⟩ := p
    by_cases h : j = i
    · subst h; simp [dirGet]
    · simp only [dirGet, if_neg h, List.map_cons, List.mem_cons, not_or]
      rw [ih]
      constructor
      · intro hni; exact ⟨fun hc => h hc.symm, hni⟩
      · intro hni; exact hni.2

theorem dirGet_of_mem_keys {d : Dir} {i : Int} (h : i ∈ d.map Prod.fst) :
    ∃ f, dirGet d i = some f := by
  cases hg : dirGet d i with
  | none => exact absurd ((dirGet_eq_none_iff d i).mp hg) (by simp [h])
  | some f => exact ⟨f, rfl⟩

theorem dirAppend_keys (d : Dir) (i : Int) (bs : Bytes) :
    (dirAppend d i bs).map Prod.fst = d.map Prod.fst := by
  induction d with
  | nil => simp [dirAppend]
  | cons p rest ih =>
    obtain ⟨j, f⟩ := p
    by_cases h : j = i
    · simp [dirAppend, h]
    · simp [dirAppend, h, ih]

theorem dirGet_dirAppend_self {d : Dir} {i : Int} {f : Bytes} (bs : Bytes)
    (h : dirGet d i = some f) :
    dirGet (dirAppend d i bs) i = some (f ++ bs) := by
  induction d with
  | nil => simp [dirGet] at h
  | cons p rest ih =>
    obtain ⟨j, g⟩ := p
    by_cases hj : j = i
    · subst hj
      simp [dirGet] at h
      simp [dirAppend, dirGet, h]
    · simp [dirGet, hj] at h
      simp [dirAppend, dirGet, hj, ih h]

theorem dirGet_dirAppend_ne {i j : Int} (d : Dir) (bs : Bytes) (h : j ≠ i) :
    dirGet (dirAppend d i bs) j = dirGet d j := by
  induction d with
  | nil => simp [dirAppend]
  | cons p rest ih =>
    obtain ⟨j', g⟩ := p
    by_cases hj : j' = i
    · subst hj
      have hne : j' ≠ j := fun hc => h (hc ▸ rfl)
      simp [dirAppend, dirGet, hne]
    · simp [dirAppend, hj, dirGet, ih]

theorem dirAppend_append_right {d1 : Dir} {i : Int} (d2 : Dir) (bs : Bytes)
    (h : i ∉ d1.map Prod.fst) :
    dirAppend (d1 ++ d2) i bs = d1 ++ dirAppend d2 i bs := by
  induction d1 with
  | nil => simp
  | cons p rest ih =>
    obtain ⟨j, f⟩ := p
    simp only [List.map_cons, List.mem_cons, not_or] at h
    have hji : j ≠ i := fun hc => h.1 hc.symm
    simp [dirAppend, hji, ih h.2]

theorem dirRemove_append (d1 d2 : Dir) (i : Int) :
    dirRemove (d1 ++ d2) i = dirRemove d1 i ++ dirRemove d2 i := by
  induction d1 with
  | nil => simp [dirRemove]
  | cons p rest ih =>
    obtain ⟨j, f⟩ := p
    by_cases h : j = i
    · simp [dirRemove, h, ih]
    · simp [dirRemove, h, ih]

theorem mem_keys_dirRemove {d : Dir} {i j : Int}
    (h : j ∈ (dirRemove d i).map Prod.fst) : j ∈ d.map Prod.fst ∧ j ≠ i := by
  induction d with
  | nil => simp [dirRemove] at h
  | cons p rest ih =>
    obtain ⟨j', f⟩ := p
    by_cases hj : j' = i
    · subst hj
      simp only [dirRemove, if_pos rfl] at h
      have := ih h
      exact ⟨by simp [this.1], this.2⟩
    · simp only [dirRemove, if_neg hj, List.map_cons, List.mem_cons] at h
      rcases h with h | h
      · subst h; exact ⟨by simp, hj⟩
      · have := ih h
        exact ⟨by simp [this.1], this.2⟩

theorem removeSegs_append (segs : List Segment) (d1 d2 : Dir) :
    removeSegs (d1 ++ d2) segs = removeSegs d1 segs ++ removeSegs d2 segs := by
  induction segs generalizing d1 d2 with
  | nil => simp [removeSegs]
  | cons s rest ih =>
    show removeSegs (dirRemove (d1 ++ d2) s.segIdx) rest = _
    rw [dirRemove_append]
    exact ih _ _

theorem removeSegs_keeps {d : Dir} {segs : List Segment}
    (h : ∀ p ∈ d, ∀ s ∈ segs, p.1 ≠ s.segIdx) : removeSegs d segs = d := by
  induction segs generalizing d with
  | nil => rfl
  | cons s rest ih =>
    show removeSegs (dirRemove d s.segIdx) rest = d
    have hd : dirRemove d s.segIdx = d := by
      induction d with
      | nil => rfl
      | cons p dtl ihd =>
        have hp : p.1 ≠ s.segIdx := h p (by simp) s (by simp)
        obtain ⟨j, f⟩ := p
        simp only [dirRemove, if_neg hp]
        rw [ihd (fun q hq s' hs' => h q (by simp [hq]) s' hs')]
    rw [hd]
    exact ih (fun p hp s' hs' => h p hp s' (by simp [hs']))

theorem removeSegs_nil_of_sub {d : Dir} {segs : List Segment}
    (h : ∀ j ∈ d.map Prod.fst, ∃ s ∈ segs, j = s.segIdx) : removeSegs d segs = [] := by
  induction segs generalizing d with
  | nil =>
    cases d with
    | nil => rfl
    | cons p rest =>
      exact absurd (h p.1 (by simp)) (by simp)
  | cons s rest ih =>
    show removeSegs (dirRemove d s.segIdx) rest = []
    refine ih (fun j hj => ?_)
    have hmem := mem_keys_dirRemove hj
    rcases h j hmem.1 with ⟨s', hs', hjs⟩
    rcases List.mem_cons.mp hs' with h1 | h1
    · exact absurd (h1 ▸ hjs) hmem.2
    · exact ⟨s', h1, hjs⟩

/-! ## Roster scan lemmas -/

theorem findPos_append (l1 l2 : List Segment) (k : Bytes) :
    findPos (l1 ++ l2) k =
      match findPos l2 k with
      | some r => some r
      | none => findPos l1 k := by
  induction l1 with
  | nil =>
    cases hf : findPos l2 k with
    | none => simp [findPos, hf]
    | some r => simp [hf]
  | cons s rest ih =>
    show (match findPos (rest ++ l2) k with
      | some r => some r
      | none => (idxGet s.index k).map (fun pos => (s.segIdx, pos))) = _
    rw [ih]
    cases hf : findPos l2 k with
    | none => rfl
    | some r => rfl

theorem findPos_single (s : Segment) (k : Bytes) :
    findPos [s] k = (idxGet s.index k).map (fun pos => (s.segIdx, pos)) := by
  simp [findPos]

theorem findPos_mem {segs : List Segment} {k : Bytes} {si pos : Int}
    (h : findPos segs k = some (si, pos)) :
    ∃ s, s ∈ segs ∧ s.segIdx = si ∧ idxGet s.index k = some pos := by
  induction segs with
  | nil => simp [findPos] at h
  | cons s rest ih =>
    unfold findPos at h
    cases hf : findPos rest k with
    | some r =>
      rw [hf] at h
      cases h
      rcases ih hf with ⟨s', hmem, hsi, hidx⟩
      exact ⟨s', by simp [hmem], hsi, hidx⟩
    | none =>
      rw [hf] at h
      cases hi : idxGet s.index k with
      | none => rw [hi] at h; simp at h
      | some p =>
        rw [hi] at h
        simp at h
        exact ⟨s, by simp, h.1, by rw [hi, h.2]⟩

theorem findPos_eq_none_iff (segs : List Segment) (k : Bytes) :
    findPos segs k = none ↔ ∀ s ∈ segs, idxGet s.index k = none := by
  induction segs with
  | nil => simp [findPos]
  | cons s rest ih =>
    unfold findPos
    cases hf : findPos rest k with
    | some r =>
      simp only []
      constructor
      · intro h; simp at h
      · intro h
        have : findPos rest k = none := ih.mpr (fun s' hs' => h s' (by simp [hs']))
        rw [this] at hf
        cases hf
    | none =>
      simp only []
      cases hi : idxGet s.index k with
      | none =>
        simp [hi]
        intro s' hs'
        exact (ih.mp hf) s' hs'
      | some p =>
        constructor
        · intro hc; simp at hc
        · intro hall
          have hs := hall s (by simp)
          rw [hi] at hs; cases hs

/-! ## Reference-semantics lemmas -/

theorem latestVal_append (h1 h2 : List (Bytes × Bytes)) (q : Bytes) :
    latestVal (h1 ++ h2) q =
      match latestVal h2 q with
      | some r => some r
      | none => latestVal h1 q := by
  induction h1 with
  | nil =>
    cases hf : latestVal h2 q with
    | none => simp [latestVal, hf]
    | some r => simp [hf]
  | cons p rest ih =>
    show (match latestVal (rest ++ h2) q with
      | some r => some r
      | none => if p.1 = q then some p.2 else none) = _
    rw [ih]
    cases hf : latestVal h2 q with
    | none => rfl
    | some r => rfl

theorem latestVal_single (k v q : Bytes) :
    latestVal [(k, v)] q = if k = q then some v else none := by
  simp [latestVal]

/-! ## Last-segment update lemmas -/

theorem setLastIndex_append (l : List Segment) (s : Segment) (k : Bytes) (pos : Int) :
    setLastIndex (l ++ [s]) k pos = l ++ [{ s with index := idxSet s.index k pos }] := by
  induction l with
  | nil => rfl
  | cons a l ih =>
    cases l with
    | nil => rfl
    | cons b l' =>
      show a :: setLastIndex (b :: l' ++ [s]) k pos = _
      rw [ih]
      rfl

end Datastore

namespace Datastore

/-! ## The reachable-state invariant -/



theorem segs_decomp {segs : List Segment} (h : segs ≠ []) :
    segs = segs.dropLast ++ [segs.getLastD ⟨0, []⟩] := by
  rcases List.eq_nil_or_concat segs with h0 | ⟨l, a, hla⟩
  · exact absurd h0 h
  · rw [hla, List.concat_eq_append]
    simp

theorem findPos_append_none {l2 : List Segment} {k : Bytes} (l1 : List Segment)
    (h : findPos l2 k = none) : findPos (l1 ++ l2) k = findPos l1 k := by
  rw [findPos_append, h]

theorem findPos_append_some {l2 : List Segment} {k : Bytes} {r : Int × Int}
    (l1 : List Segment) (h : findPos l2 k = some r) : findPos (l1 ++ l2) k = some r := by
  rw [findPos_append, h]

theorem get_unfold (db : Db) (k : Bytes) :
    db.get k =
      match findPos db.segments k with
      | none => .error .notFound
      | some (si, pos) =>
        match getFromSegment db.dir si pos with
        | .error e => .error e
        | .ok e => if calculateHash e.value ≠ e.hash then .error .hashMismatch else .ok e.value := by
  unfold Db.get Db.getPos
  cases findPos db.segments k with
  | none => rfl
  | some r => obtain ⟨si, pos⟩ := r; rfl

theorem getFromSegment_congr {d d' : Dir} {si : Int} (pos : Int)
    (h : dirGet d' si = dirGet d si) : getFromSegment d' si pos = getFromSegment d si pos := by
  unfold getFromSegment
  rw [h]

theorem createSegment_inv {hist : List (Bytes × Bytes)} {db : Db}
    (h : Inv hist db) : Inv hist db.createSegment := by
  have hnotmem : (db.lastSegmentIndex + 1) ∉ db.dir.map Prod.fst := by
    rw [h.keysEq]
    intro hc
    rcases List.mem_map.mp hc with ⟨s, hs, hsi⟩
    have := h.idxLe s hs
    omega
  have hdirnone : dirGet db.dir (db.lastSegmentIndex + 1) = none :=
    (dirGet_eq_none_iff _ _).mpr hnotmem
  have hdc : dirCreate db.dir (db.lastSegmentIndex + 1) = db.dir ++ [(db.lastSegmentIndex + 1, [])] := by
    simp [dirCreate, hdirnone]
  have hsegs : db.createSegment.segments = db.segments ++ [⟨db.lastSegmentIndex + 1, []⟩] := rfl
  have hdir : db.createSegment.dir = db.dir ++ [(db.lastSegmentIndex + 1, [])] := by
    show dirCreate db.dir (db.lastSegmentIndex + 1) = _
    exact hdc
  have hgetdir : ∀ s ∈ db.segments, dirGet db.createSegment.dir s.segIdx = dirGet db.dir s.segIdx := by
    intro s hs
    rw [hdir, dirGet_append]
    rcases h.frames s hs with _
    have hmem : s.segIdx ∈ db.dir.map Prod.fst := by
      rw [h.keysEq]; exact List.mem_map_of_mem _ hs
    rcases dirGet_of_mem_keys hmem with ⟨f, hf⟩
    rw [hf]
  refine ⟨by simp [hsegs], ?_, ?_, ?_, ?_, ?_, ?_⟩
  · show db.lastSegmentIndex + 1 = _
    rw [hsegs]
    simp
  · rw [hdir, hsegs]
    simp [h.keysEq]
  · intro s hs
    rw [hsegs] at hs
    show s.segIdx ≤ db.lastSegmentIndex + 1
    rcases List.mem_append.mp hs with hs | hs
    · have := h.idxLe s hs; omega
    · simp at hs; subst hs; simp
  · rw [hsegs, List.map_append, List.nodup_append]
    refine ⟨h.nodup, by simp, ?_⟩
    intro a ha
    simp only [List.map_cons, List.map_nil, List.mem_singleton]
    intro hc
    rcases List.mem_map.mp ha with ⟨s, hs, hsi⟩
    have := h.idxLe s hs
    omega
  · intro s hs k pos hidx
    rw [hsegs] at hs
    rcases List.mem_append.mp hs with hs | hs
    · rcases h.frames s hs k pos hidx with ⟨v, f, hf, hgf⟩
      exact ⟨v, f, by rw [hgetdir s hs]; exact hf, hgf⟩
    · simp at hs
      subst hs
      simp [idxGet] at hidx
  · intro q
    have hfp : findPos db.createSegment.segments q = findPos db.segments q := by
      rw [hsegs]
      exact findPos_append_none _ (by simp [findPos, idxGet])
    rw [get_unfold, hfp, ← h.sem q, get_unfold]
    cases hfq : findPos db.segments q with
    | none => rfl
    | some r =>
      obtain ⟨si, pos⟩ := r
      rcases findPos_mem hfq with ⟨s, hs, hsi, hidx⟩
      have : dirGet db.createSegment.dir si = dirGet db.dir si := by
        rw [← hsi]; exact hgetdir s hs
      simp only [getFromSegment_congr pos this]

end Datastore

namespace Datastore

theorem writeStep_inv {hist : List (Bytes × Bytes)} {db : Db} {k v : Bytes}
    (hI : Inv hist db) (hb : WFbound k v) :
    Inv (hist ++ [(k, v)])
      { db with
        dir := dirAppend db.dir db.outIdx (Entry.mk k v (calculateHash v)).encode
        segments := setLastIndex db.segments k
          ((((dirGet (dirAppend db.dir db.outIdx (Entry.mk k v (calculateHash v)).encode)
               db.outIdx).getD []).length : Int)
            - ((Entry.mk k v (calculateHash v)).encode.length : Int)) } := by
  set lastSeg := db.segments.getLastD ⟨0, []⟩ with hlastSeg
  set init := db.segments.dropLast with hinit
  have hdecomp : db.segments = init ++ [lastSeg] := segs_decomp hI.segsNE
  have hout : db.outIdx = lastSeg.segIdx := hI.outLast
  have hmemLast : lastSeg ∈ db.segments := by rw [hdecomp]; simp
  have hmemInit : ∀ s ∈ init, s ∈ db.segments := by
    intro s hs; rw [hdecomp]; exact List.mem_append_left _ hs
  obtain ⟨f, hf⟩ := dirGet_of_mem_keys
    (show db.outIdx ∈ db.dir.map Prod.fst by
      rw [hI.keysEq, hout]; exact List.mem_map_of_mem _ hmemLast)
  have hd2 : dirGet (dirAppend db.dir db.outIdx (Entry.mk k v (calculateHash v)).encode) db.outIdx
      = some (f ++ (Entry.mk k v (calculateHash v)).encode) :=
    dirGet_dirAppend_self _ hf
  have hpos : ((((dirGet (dirAppend db.dir db.outIdx (Entry.mk k v (calculateHash v)).encode)
        db.outIdx).getD []).length : Int)
      - ((Entry.mk k v (calculateHash v)).encode.length : Int)) = (f.length : Int) := by
    rw [hd2]
    simp only [Option.getD_some, List.length_append]
    push_cast
    ring
  have hnd : ((init ++ [lastSeg]).map Segment.segIdx).Nodup := hdecomp ▸ hI.nodup
  rw [List.map_append] at hnd
  rcases List.nodup_append.mp hnd with ⟨hndInit, _, hdisj0⟩
  have hdisj : ∀ s ∈ init, s.segIdx ≠ lastSeg.segIdx := by
    intro s hs hc
    exact hdisj0 (List.mem_map_of_mem _ hs) (by simp [hc])
  rw [hpos, hdecomp, setLastIndex_append]
  refine ⟨by simp, ?_, ?_, ?_, ?_, ?_, ?_⟩
  · show db.outIdx = _
    simp [hout]
  · show (dirAppend db.dir db.outIdx (Entry.mk k v (calculateHash v)).encode).map Prod.fst = _
    rw [dirAppend_keys, hI.keysEq, hdecomp]
    simp
  · intro s hs
    show s.segIdx ≤ db.lastSegmentIndex
    rcases List.mem_append.mp hs with hs | hs
    · exact hI.idxLe s (hmemInit s hs)
    · simp at hs
      subst hs
      exact hI.idxLe lastSeg hmemLast
  · show ((init ++ [_]).map Segment.segIdx).Nodup
    rw [List.map_append]
    refine List.nodup_append.mpr ⟨hndInit, by simp, ?_⟩
    intro a ha hb'
    simp only [List.map_cons, List.map_nil, List.mem_singleton] at hb'
    rcases List.mem_map.mp ha with ⟨s, hs, hsi⟩
    exact hdisj s hs (by rw [hsi, hb'])
  · intro s hs k' pos hidx
    rcases List.mem_append.mp hs with hs | hs
    · rcases hI.frames s (hmemInit s hs) k' pos hidx with ⟨v', f', hf', hgf⟩
      refine ⟨v', f', ?_, hgf⟩
      rw [dirGet_dirAppend_ne _ _ (by rw [hout]; exact hdisj s hs)]
      exact hf'
    · simp at hs
      subst hs
      simp only at hidx
      by_cases hk : k = k'
      · subst hk
        rw [idxGet_idxSet_self] at hidx
        injection hidx with hidx
        subst hidx
        refine ⟨v, f ++ (Entry.mk k v (calculateHash v)).encode, ?_, ?_⟩
        · show dirGet _ lastSeg.segIdx = _
          rw [← hout]
          exact hd2
        · exact GoodFrame.here f k v (calculateHash v) hb
      · rw [idxGet_idxSet_ne _ _ hk] at hidx
        rcases hI.frames lastSeg hmemLast k' pos hidx with ⟨v', f'', hf'', hgf⟩
        have hff : f'' = f := by
          rw [← hout] at hf''
          rw [hf''] at hf
          injection hf
        subst hff
        refine ⟨v', f'' ++ (Entry.mk k v (calculateHash v)).encode, ?_, hgf.append _⟩
        show dirGet _ lastSeg.segIdx = _
        rw [← hout]
        exact hd2
  · intro q
    have hlat : latestVal (hist ++ [(k, v)]) q = if k = q then some v else latestVal hist q := by
      rw [latestVal_append]
      by_cases hk : k = q
      · simp [latestVal_single, hk]
      · simp [latestVal_single, hk]
    show Db.get _ q = _
    rw [get_unfold, hlat]
    by_cases hk : k = q
    · subst hk
      have hfp : findPos (init ++ [{ lastSeg with index := idxSet lastSeg.index k (f.length : Int) }]) k
          = some (lastSeg.segIdx, (f.length : Int)) := by
        apply findPos_append_some
        rw [findPos_single]
        simp [idxGet_idxSet_self]
      simp only [hfp]
      have hread : getFromSegment
          (dirAppend db.dir db.outIdx (Entry.mk k v (calculateHash v)).encode)
          lastSeg.segIdx (f.length : Int) = .ok ⟨k, v, calculateHash v⟩ :=
        getFromSegment_frame (hout ▸ hd2) (GoodFrame.here f k v (calculateHash v) hb)
      simp only [hread]
      simp [exceptOf]
    · rw [if_neg hk, ← hI.sem q, get_unfold]
      have hfpe : findPos (init ++ [{ lastSeg with index := idxSet lastSeg.index k (f.length : Int) }]) q
          = findPos db.segments q := by
        conv_rhs => rw [hdecomp]
        rw [findPos_append, findPos_append, findPos_single, findPos_single,
          idxGet_idxSet_ne _ _ hk]
      simp only [hfpe]
      cases hfq : findPos db.segments q with
      | none => rfl
      | some r =>
        obtain ⟨si, pos⟩ := r
        rcases findPos_mem hfq with ⟨s, hs, hsi, hidx⟩
        rw [hdecomp] at hs
        rcases List.mem_append.mp hs with hs | hs
        · have hne : si ≠ db.outIdx := by
            rw [← hsi, hout]
            exact hdisj s hs
          simp only [getFromSegment_congr pos (dirGet_dirAppend_ne _ _ hne)]
        · simp at hs
          subst hs
          have hsiout : si = db.outIdx := by rw [← hsi, hout]
          subst hsiout
          rcases hI.frames lastSeg hmemLast q pos hidx with ⟨v', f'', hf'', hgf⟩
          have hff : f'' = f := by
            rw [← hout] at hf''
            rw [hf''] at hf
            injection hf
          subst hff
          have hr1 : getFromSegment db.dir db.outIdx pos = .ok ⟨q, v', calculateHash v'⟩ := by
            rw [hout]
            exact getFromSegment_frame hf'' hgf
          have hr2 : getFromSegment
              (dirAppend db.dir db.outIdx (Entry.mk k v (calculateHash v)).encode)
              db.outIdx pos = .ok ⟨q, v', calculateHash v'⟩ :=
            getFromSegment_frame hd2 (hgf.append _)
          simp only [hr1, hr2]

theorem putOp_inv {hist : List (Bytes × Bytes)} {db : Db} {k v : Bytes}
    (hI : Inv hist db) (hb : WFbound k v) :
    Inv (hist ++ [(k, v)]) (db.putOp k v) := by
  unfold Db.putOp
  by_cases hroll : ((((dirGet db.dir db.outIdx).getD []).length : Int)
      + (Entry.mk k v (calculateHash v)).getLength > db.segmentSize)
  · simp only [if_pos hroll]
    exact writeStep_inv (createSegment_inv hI) hb
  · simp only [if_neg hroll]
    exact writeStep_inv hI hb

theorem freshDb_inv (sz : Int) : Inv [] (freshDb sz) := by
  refine ⟨by simp [freshDb], rfl, rfl, ?_, by simp [freshDb], ?_, ?_⟩
  · intro s hs
    simp [freshDb] at hs
    subst hs
    simp [freshDb]
  · intro s hs k pos hidx
    simp [freshDb] at hs
    subst hs
    simp [idxGet] at hidx
  · intro k
    rw [get_unfold]
    have hfp : findPos (freshDb sz).segments k = none := by
      simp [freshDb, findPos, idxGet]
    rw [hfp]
    simp [latestVal, exceptOf]

theorem runPuts_append (db : Db) (ops : List (Bytes × Bytes)) (p : Bytes × Bytes) :
    runPuts db (ops ++ [p]) = (runPuts db ops).putOp p.1 p.2 := by
  simp [runPuts, List.foldl_append]

theorem runPuts_inv (sz : Int) (hist : List (Bytes × Bytes)) (hbh : BoundedHist hist) :
    Inv hist (runPuts (freshDb sz) hist) := by
  induction hist using List.reverseRecOn with
  | nil => exact freshDb_inv sz
  | append_singleton l p ih =>
    rw [runPuts_append]
    have hb : WFbound p.1 p.2 := hbh p (by simp)
    have hbl : BoundedHist l := fun q hq => hbh q (by simp [hq])
    have := putOp_inv (ih hbl) hb
    simpa using this

end Datastore

namespace Datastore

/-! ## Compaction: the keep map and the write loop -/



theorem keepHas_eq (acc : List (Bytes × Int × Int)) (q : Bytes) :
    keepHas acc q = (keepFind acc q).isSome := by
  induction acc with
  | nil => simp [keepHas, keepFind]
  | cons p rest ih =>
    obtain ⟨k, si, pos⟩ := p
    by_cases h : k = q
    · simp [keepHas, keepFind, h]
    · simp [keepHas, keepFind, h, ih]

theorem keepFind_eq_none_iff (acc : List (Bytes × Int × Int)) (q : Bytes) :
    keepFind acc q = none ↔ q ∉ acc.map Prod.fst := by
  induction acc with
  | nil => simp [keepFind]
  | cons p rest ih =>
    obtain ⟨k, si, pos⟩ := p
    by_cases h : k = q
    · subst h; simp [keepFind]
    · simp only [keepFind, if_neg h, List.map_cons, List.mem_cons, not_or]
      rw [ih]
      constructor
      · intro hni; exact ⟨fun hc => h hc.symm, hni⟩
      · intro hni; exact hni.2

theorem keepFind_append (a b : List (Bytes × Int × Int)) (q : Bytes) :
    keepFind (a ++ b) q =
      match keepFind a q with
      | some r => some r
      | none => keepFind b q := by
  induction a with
  | nil => simp [keepFind]
  | cons p rest ih =>
    obtain ⟨k, si, pos⟩ := p
    by_cases h : k = q
    · simp [keepFind, h]
    · simp [keepFind, h, ih]

theorem keepAdd_find (idx : Index) (acc : List (Bytes × Int × Int)) (si : Int) (q : Bytes) :
    keepFind (keepAdd acc si idx) q =
      match keepFind acc q with
      | some r => some r
      | none => (idxGet idx q).map (fun pos => (si, pos)) := by
  induction idx generalizing acc with
  | nil =>
    show keepFind acc q = _
    cases h : keepFind acc q <;> simp [idxGet]
  | cons p rest ih =>
    obtain ⟨k, pos⟩ := p
    show keepFind (keepAdd (if keepHas acc k then acc else acc ++ [(k, si, pos)]) si rest) q = _
    rw [ih]
    by_cases hk : k = q
    · subst hk
      by_cases hhas : keepHas acc k
      · rw [if_pos hhas]
        rw [keepHas_eq] at hhas
        cases hf : keepFind acc k with
        | none => rw [hf] at hhas; simp at hhas
        | some r => simp [idxGet]
      · rw [if_neg hhas]
        rw [keepHas_eq] at hhas
        cases hf : keepFind acc k with
        | none =>
          rw [keepFind_append, hf]
          simp [keepFind, idxGet]
        | some r => rw [hf] at hhas; simp at hhas
    · by_cases hhas : keepHas acc k
      · rw [if_pos hhas]
        cases hf : keepFind acc q <;> simp [idxGet, hk]
      · rw [if_neg hhas]
        rw [keepFind_append]
        cases hf : keepFind acc q with
        | none => simp [keepFind, fun hc : k = q => hk hc, idxGet, hk]
        | some r => simp [keepFind, idxGet, hk]

theorem buildKeep_go (l : List Segment) (acc : List (Bytes × Int × Int)) (q : Bytes) :
    keepFind (l.foldl (fun acc s => keepAdd acc s.segIdx s.index) acc) q =
      match keepFind acc q with
      | some r => some r
      | none => findPosRev l q := by
  induction l generalizing acc with
  | nil =>
    show keepFind acc q = _
    cases h : keepFind acc q <;> simp [findPosRev]
  | cons s rest ih =>
    show keepFind (rest.foldl _ (keepAdd acc s.segIdx s.index)) q = _
    rw [ih, keepAdd_find]
    cases hf : keepFind acc q with
    | some r => rfl
    | none =>
      simp only [findPosRev]

theorem buildKeep_find (revSealed : List Segment) (q : Bytes) :
    keepFind (buildKeep revSealed) q = findPosRev revSealed q := by
  unfold buildKeep
  rw [buildKeep_go]
  simp [keepFind]

theorem findPosRev_append (a b : List Segment) (q : Bytes) :
    findPosRev (a ++ b) q =
      match findPosRev a q with
      | some r => some r
      | none => findPosRev b q := by
  induction a with
  | nil => simp [findPosRev]
  | cons s rest ih =>
    simp only [List.cons_append, findPosRev]
    cases hi : (idxGet s.index q).map (fun pos => (s.segIdx, pos)) with
    | some r => rfl
    | none => exact ih

theorem findPosRev_reverse (l : List Segment) (q : Bytes) :
    findPosRev l.reverse q = findPos l q := by
  induction l with
  | nil => simp [findPosRev, findPos]
  | cons s rest ih =>
    rw [List.reverse_cons, findPosRev_append, ih]
    simp only [findPos]
    cases hf : findPos rest q with
    | some r => rfl
    | none =>
      simp only [findPosRev]
      cases hi : (idxGet s.index q).map (fun pos => (s.segIdx, pos)) with
      | some r => rfl
      | none => rfl

theorem keepAdd_nodup {acc : List (Bytes × Int × Int)} (idx : Index) (si : Int)
    (h : (acc.map Prod.fst).Nodup) : ((keepAdd acc si idx).map Prod.fst).Nodup := by
  induction idx generalizing acc with
  | nil => exact h
  | cons p rest ih =>
    obtain ⟨k, pos⟩ := p
    show ((keepAdd (if keepHas acc k then acc else acc ++ [(k, si, pos)]) si rest).map Prod.fst).Nodup
    by_cases hhas : keepHas acc k
    · rw [if_pos hhas]; exact ih h
    · rw [if_neg hhas]
      apply ih
      rw [List.map_append, List.nodup_append]
      refine ⟨h, by simp, ?_⟩
      intro a ha hb
      simp only [List.map_cons, List.map_nil, List.mem_singleton] at hb
      rw [keepHas_eq] at hhas
      have hnone : keepFind acc k = none := by
        cases hf : keepFind acc k with
        | none => rfl
        | some r => rw [hf] at hhas; simp at hhas
      rw [hb] at ha
      exact (keepFind_eq_none_iff acc k).mp hnone ha

theorem buildKeep_nodup (revSealed : List Segment) :
    ((buildKeep revSealed).map Prod.fst).Nodup := by
  unfold buildKeep
  have hgen : ∀ (l : List Segment) (acc : List (Bytes × Int × Int)),
      (acc.map Prod.fst).Nodup →
      ((l.foldl (fun acc s => keepAdd acc s.segIdx s.index) acc).map Prod.fst).Nodup := by
    intro l
    induction l with
    | nil => intro acc h; exact h
    | cons s rest ih =>
      intro acc h
      exact ih _ (keepAdd_nodup s.index s.segIdx h)
  exact hgen revSealed [] (by simp)

theorem keepAdd_mem {acc : List (Bytes × Int × Int)} {idx : Index} {si : Int}
    {p : Bytes × Int × Int} (h : p ∈ keepAdd acc si idx) :
    p ∈ acc ∨ (keepHas acc p.1 = false ∧ p.2.1 = si ∧ idxGet idx p.1 = some p.2.2) := by
  induction idx generalizing acc with
  | nil => exact Or.inl h
  | cons kp rest ih =>
    obtain ⟨k, pos⟩ := kp
    rw [show keepAdd acc si ((k, pos) :: rest)
      = keepAdd (if keepHas acc k then acc else acc ++ [(k, si, pos)]) si rest from rfl] at h
    rcases ih h with hmem | ⟨hhas, hsi, hidx⟩
    · by_cases hk : keepHas acc k
      · rw [if_pos hk] at hmem
        exact Or.inl hmem
      · rw [if_neg hk] at hmem
        rcases List.mem_append.mp hmem with hmem | hmem
        · exact Or.inl hmem
        · simp only [List.mem_singleton] at hmem
          subst hmem
          refine Or.inr ⟨by simp [hk], rfl, ?_⟩
          simp [idxGet]
    · have hkacc : keepHas (if keepHas acc k then acc else acc ++ [(k, si, pos)]) k = true := by
        by_cases hk : keepHas acc k
        · rw [if_pos hk]; exact hk
        · rw [if_neg hk, keepHas_eq, keepFind_append]
          cases hf : keepFind acc k with
          | some r => simp
          | none => simp [keepFind]
      have hpk : p.1 ≠ k := by
        intro hc
        rw [hc] at hhas
        rw [hkacc] at hhas
        cases hhas
      have hacc : keepHas acc p.1 = false := by
        by_cases hk : keepHas acc k
        · rw [if_pos hk] at hhas; exact hhas
        · rw [if_neg hk, keepHas_eq, keepFind_append] at hhas
          rw [keepHas_eq]
          cases hf : keepFind acc p.1 with
          | none => rfl
          | some r => rw [hf] at hhas; simp at hhas
      refine Or.inr ⟨hacc, hsi, ?_⟩
      have hkp : k ≠ p.1 := fun hc => hpk hc.symm
      simp [idxGet, hkp, hidx]

theorem buildKeep_mem {revSealed : List Segment} {p : Bytes × Int × Int}
    (h : p ∈ buildKeep revSealed) :
    ∃ s ∈ revSealed, p.2.1 = s.segIdx ∧ idxGet s.index p.1 = some p.2.2 := by
  unfold buildKeep at h
  have hgen : ∀ (l : List Segment) (acc : List (Bytes × Int × Int)),
      p ∈ l.foldl (fun acc s => keepAdd acc s.segIdx s.index) acc →
      p ∈ acc ∨ ∃ s ∈ l, p.2.1 = s.segIdx ∧ idxGet s.index p.1 = some p.2.2 := by
    intro l
    induction l with
    | nil => intro acc h; exact Or.inl h
    | cons s rest ih =>
      intro acc h
      rcases ih _ h with hmem | ⟨s', hs', hp⟩
      · rcases keepAdd_mem hmem with hmem | ⟨_, hsi, hidx⟩
        · exact Or.inl hmem
        · exact Or.inr ⟨s, by simp, hsi, hidx⟩
      · exact Or.inr ⟨s', by simp [hs'], hp⟩
  rcases hgen revSealed [] h with hmem | hgood
  · simp at hmem
  · exact hgood

end Datastore

namespace Datastore

theorem compactWrite_append (d : Dir) (K : List (Bytes × Int × Int)) (p : Bytes × Int × Int) :
    compactWrite d (K ++ [p]) =
      match getFromSegment d p.2.1 p.2.2 with
      | .error _ => compactWrite d K
      | .ok e =>
        ((compactWrite d K).1 ++ (Entry.mk p.1 e.value e.hash).encode,
         idxSet (compactWrite d K).2 p.1 (((compactWrite d K).1.length : Nat) : Int)) := by
  unfold compactWrite
  rw [List.foldl_append]
  simp only [List.foldl_cons, List.foldl_nil]

theorem compactWrite_spec (d : Dir) (K : List (Bytes × Int × Int))
    (hnd : (K.map Prod.fst).Nodup)
    (hframes : ∀ p ∈ K, ∃ v f, dirGet d p.2.1 = some f ∧ GoodFrame f p.2.2 p.1 v) :
    (∀ q, idxGet (compactWrite d K).2 q = none ↔ keepFind K q = none) ∧
    (∀ q si pos, keepFind K q = some (si, pos) →
      ∃ off v, idxGet (compactWrite d K).2 q = some off ∧
        GoodFrame (compactWrite d K).1 off q v ∧
        getFromSegment d si pos = .ok ⟨q, v, calculateHash v⟩) := by
  induction K using List.reverseRecOn with
  | nil =>
    constructor
    · intro q
      simp [compactWrite, idxGet, keepFind]
    · intro q si pos h
      simp [keepFind] at h
  | append_singleton K p ih =>
    obtain ⟨k, si0, pos0⟩ := p
    have hndK : (K.map Prod.fst).Nodup := by
      rw [List.map_append] at hnd
      exact (List.nodup_append.mp hnd).1
    have hknotin : k ∉ K.map Prod.fst := by
      rw [List.map_append] at hnd
      rcases List.nodup_append.mp hnd with ⟨_, _, hdisj⟩
      intro hc
      exact hdisj hc (by simp)
    obtain ⟨hih1, hih2⟩ := ih hndK (fun p hp => hframes p (List.mem_append_left _ hp))
    rcases hframes (k, si0, pos0) (by simp) with ⟨v0, f0, hf0, hgf0⟩
    have hb0 : WFbound k v0 := hgf0.2.1
    have hread : getFromSegment d si0 pos0 = .ok ⟨k, v0, calculateHash v0⟩ :=
      getFromSegment_frame hf0 hgf0
    have hcw : compactWrite d (K ++ [(k, si0, pos0)]) =
        ((compactWrite d K).1 ++ (Entry.mk k v0 (calculateHash v0)).encode,
         idxSet (compactWrite d K).2 k (((compactWrite d K).1.length : Nat) : Int)) := by
      rw [compactWrite_append]
      simp only [hread]
    have hkfind : keepFind K k = none := (keepFind_eq_none_iff K k).mpr hknotin
    constructor
    · intro q
      rw [hcw, keepFind_append]
      by_cases hq : k = q
      · subst hq
        rw [hkfind]
        constructor
        · intro hc
          rw [idxGet_idxSet_self] at hc
          cases hc
        · intro hc
          simp [keepFind] at hc
      · rw [idxGet_idxSet_ne _ _ hq, hih1 q]
        cases hf : keepFind K q with
        | some r =>
          constructor
          · intro hc; cases hc
          · intro hc; cases hc
        | none => simp [keepFind, hq]
    · intro q si pos h
      rw [hcw]
      rw [keepFind_append] at h
      cases hf : keepFind K q with
      | some r =>
        rw [hf] at h
        have hr : r = (si, pos) := by
          cases h
          rfl
        subst hr
        have hqk : q ≠ k := by
          intro hc
          rw [hc, hkfind] at hf
          cases hf
        rcases hih2 q si pos hf with ⟨off, v, hoff, hgood, hreadv⟩
        refine ⟨off, v, ?_, hgood.append _, hreadv⟩
        rw [idxGet_idxSet_ne _ _ (fun hc => hqk hc.symm)]
        exact hoff
      | none =>
        rw [hf] at h
        by_cases hq : k = q
        · subst hq
          simp [keepFind] at h
          obtain ⟨hsi, hpos⟩ := h
          subst hsi
          subst hpos
          refine ⟨(((compactWrite d K).1.length : Nat) : Int), v0, idxGet_idxSet_self _ _ _, ?_, hread⟩
          exact GoodFrame.here (compactWrite d K).1 k v0 (calculateHash v0) hb0
        · simp [keepFind, hq] at h

end Datastore

namespace Datastore

theorem dir_split_last {d : Dir} {xs : List Int} {x : Int}
    (h : d.map Prod.fst = xs ++ [x]) :
    ∃ d1 p, d = d1 ++ [p] ∧ d1.map Prod.fst = xs ∧ p.1 = x := by
  rcases List.eq_nil_or_concat d with hd | ⟨d1, p, hd⟩
  · rw [hd] at h
    simp at h
  · rw [hd, List.concat_eq_append, List.map_append] at h
    have hinj := List.append_inj' h (by simp)
    refine ⟨d1, p, by rw [hd, List.concat_eq_append], hinj.1, ?_⟩
    have h2 := hinj.2
    simp at h2
    exact h2

theorem compact_spec {hist : List (Bytes × Bytes)} {db : Db}
    (hI : Inv hist db) (h2 : 2 ≤ db.segments.length) :
    (db.compact).dir.length = 2 ∧
    ∀ q, (db.compact).get q = exceptOf (latestVal hist q) := by
  set lastSeg := db.segments.getLastD ⟨0, []⟩ with hlastSegDef
  set init := db.segments.dropLast with hinitDef
  have hdecomp : db.segments = init ++ [lastSeg] := segs_decomp hI.segsNE
  have hmemLast : lastSeg ∈ db.segments := by rw [hdecomp]; simp
  have hnotmem : (db.lastSegmentIndex + 1) ∉ db.dir.map Prod.fst := by
    rw [hI.keysEq]
    intro hc
    rcases List.mem_map.mp hc with ⟨s, hs, hsi⟩
    have := hI.idxLe s hs
    omega
  have hdirnone : dirGet db.dir (db.lastSegmentIndex + 1) = none :=
    (dirGet_eq_none_iff _ _).mpr hnotmem
  have hdc : dirCreate db.dir (db.lastSegmentIndex + 1)
      = db.dir ++ [(db.lastSegmentIndex + 1, [])] := by
    simp [dirCreate, hdirnone]
  have hcompact : db.compact = { db with
      dir := removeSegs
        (dirAppend (dirCreate db.dir (db.lastSegmentIndex + 1)) (db.lastSegmentIndex + 1)
          (compactWrite (dirCreate db.dir (db.lastSegmentIndex + 1)) (buildKeep init.reverse)).1)
        init
      lastSegmentIndex := db.lastSegmentIndex + 1
      segments := [⟨db.lastSegmentIndex + 1,
        (compactWrite (dirCreate db.dir (db.lastSegmentIndex + 1)) (buildKeep init.reverse)).2⟩,
        lastSeg] } := by
    unfold Db.compact
    rw [if_neg (not_lt.mpr h2)]
  have hKnd := buildKeep_nodup init.reverse
  have hKframes : ∀ p ∈ buildKeep init.reverse,
      ∃ v f, dirGet (dirCreate db.dir (db.lastSegmentIndex + 1)) p.2.1 = some f ∧
        GoodFrame f p.2.2 p.1 v := by
    intro p hp
    rcases buildKeep_mem hp with ⟨s, hs, hsi, hidx⟩
    have hsinit : s ∈ init := List.mem_reverse.mp hs
    have hsseg : s ∈ db.segments := by rw [hdecomp]; exact List.mem_append_left _ hsinit
    rcases hI.frames s hsseg p.1 p.2.2 hidx with ⟨v, f, hf, hgf⟩
    refine ⟨v, f, ?_, hgf⟩
    rw [hsi, hdc, dirGet_append, hf]
  obtain ⟨hcw1, hcw2⟩ := compactWrite_spec _ _ hKnd hKframes
  have hkfind : ∀ q, keepFind (buildKeep init.reverse) q = findPos init q := by
    intro q
    rw [buildKeep_find, findPosRev_reverse]
  obtain ⟨factive, hfact⟩ := dirGet_of_mem_keys
    (show lastSeg.segIdx ∈ db.dir.map Prod.fst by
      rw [hI.keysEq]; exact List.mem_map_of_mem _ hmemLast)
  have hdir2 : dirAppend (dirCreate db.dir (db.lastSegmentIndex + 1)) (db.lastSegmentIndex + 1)
      (compactWrite (dirCreate db.dir (db.lastSegmentIndex + 1)) (buildKeep init.reverse)).1
      = db.dir ++ [(db.lastSegmentIndex + 1,
          (compactWrite (dirCreate db.dir (db.lastSegmentIndex + 1)) (buildKeep init.reverse)).1)] := by
    rw [hdc, dirAppend_append_right _ _ hnotmem]
    congr 1
    simp [dirAppend]
  have hkeys : db.dir.map Prod.fst = init.map Segment.segIdx ++ [lastSeg.segIdx] := by
    rw [hI.keysEq, hdecomp]
    simp
  obtain ⟨dsl, pact, hdsplit, hdslkeys, hpact1⟩ := dir_split_last hkeys
  have hnddir : (db.dir.map Prod.fst).Nodup := by rw [hI.keysEq]; exact hI.nodup
  have hlastnotin : lastSeg.segIdx ∉ dsl.map Prod.fst := by
    rw [hdsplit, List.map_append] at hnddir
    rcases List.nodup_append.mp hnddir with ⟨_, _, hdisj⟩
    intro hc
    exact hdisj hc (by simp [hpact1])
  have hpact : pact = (lastSeg.segIdx, factive) := by
    have hnone : dirGet dsl lastSeg.segIdx = none := (dirGet_eq_none_iff _ _).mpr hlastnotin
    rw [hdsplit, dirGet_append, hnone] at hfact
    obtain ⟨p1, p2⟩ := pact
    simp only at hpact1
    subst hpact1
    simp [dirGet] at hfact
    rw [hfact]
  have hdisjinit : ∀ s ∈ init, s.segIdx ≠ lastSeg.segIdx := by
    have hnd : ((init ++ [lastSeg]).map Segment.segIdx).Nodup := hdecomp ▸ hI.nodup
    rw [List.map_append] at hnd
    rcases List.nodup_append.mp hnd with ⟨_, _, hdisj⟩
    intro s hs hc
    exact hdisj (List.mem_map_of_mem _ hs) (by simp [hc])
  have hlastNI : lastSeg.segIdx ≠ db.lastSegmentIndex + 1 := by
    have := hI.idxLe lastSeg hmemLast
    omega
  have hdir3 : removeSegs (db.dir ++ [(db.lastSegmentIndex + 1,
        (compactWrite (dirCreate db.dir (db.lastSegmentIndex + 1)) (buildKeep init.reverse)).1)]) init
      = [(lastSeg.segIdx, factive), (db.lastSegmentIndex + 1,
          (compactWrite (dirCreate db.dir (db.lastSegmentIndex + 1)) (buildKeep init.reverse)).1)] := by
    rw [hdsplit, hpact, List.append_assoc, removeSegs_append, removeSegs_append]
    rw [removeSegs_nil_of_sub (by
      intro j hj
      rw [hdslkeys] at hj
      rcases List.mem_map.mp hj with ⟨s, hs, hsi⟩
      exact ⟨s, hs, hsi.symm⟩)]
    rw [removeSegs_keeps (by
      intro p hp s hs
      simp only [List.mem_singleton] at hp
      subst hp
      exact Ne.symm (hdisjinit s hs))]
    rw [removeSegs_keeps (by
      intro p hp s hs
      simp only [List.mem_singleton] at hp
      subst hp
      intro hc
      have := hI.idxLe s (by rw [hdecomp]; exact List.mem_append_left _ hs)
      simp at hc
      omega)]
    simp
  have hsegs' : (db.compact).segments = [⟨db.lastSegmentIndex + 1,
      (compactWrite (dirCreate db.dir (db.lastSegmentIndex + 1)) (buildKeep init.reverse)).2⟩,
      lastSeg] := by
    rw [hcompact]
  have hdir' : (db.compact).dir = [(lastSeg.segIdx, factive), (db.lastSegmentIndex + 1,
      (compactWrite (dirCreate db.dir (db.lastSegmentIndex + 1)) (buildKeep init.reverse)).1)] := by
    rw [hcompact]
    show removeSegs _ init = _
    rw [hdir2, hdir3]
  have hdg_last : dirGet (db.compact).dir lastSeg.segIdx = some factive := by
    rw [hdir']
    simp [dirGet]
  have hdg_NI : dirGet (db.compact).dir (db.lastSegmentIndex + 1)
      = some (compactWrite (dirCreate db.dir (db.lastSegmentIndex + 1)) (buildKeep init.reverse)).1 := by
    rw [hdir']
    simp [dirGet, hlastNI]
  refine ⟨by rw [hdir']; rfl, ?_⟩
  intro q
  rw [get_unfold, hsegs']
  have hfp : findPos [⟨db.lastSegmentIndex + 1,
      (compactWrite (dirCreate db.dir (db.lastSegmentIndex + 1)) (buildKeep init.reverse)).2⟩,
      lastSeg] q =
      match (idxGet lastSeg.index q).map (fun pos => (lastSeg.segIdx, pos)) with
      | some r => some r
      | none => (idxGet (compactWrite (dirCreate db.dir (db.lastSegmentIndex + 1))
          (buildKeep init.reverse)).2 q).map
          (fun pos => (db.lastSegmentIndex + 1, pos)) := by
    simp [findPos]
  rw [hfp]
  rw [← hI.sem q, get_unfold]
  have hfpold : findPos db.segments q =
      match (idxGet lastSeg.index q).map (fun pos => (lastSeg.segIdx, pos)) with
      | some r => some r
      | none => findPos init q := by
    conv_lhs => rw [hdecomp]
    rw [findPos_append, findPos_single]
  rw [hfpold]
  cases hact : idxGet lastSeg.index q with
  | some pos =>
    simp only [Option.map_some']
    simp only [getFromSegment_congr pos (by rw [hdg_last, hfact] :
      dirGet (db.compact).dir lastSeg.segIdx = dirGet db.dir lastSeg.segIdx)]
  | none =>
    simp only [Option.map_none']
    cases hsf : findPos init q with
    | none =>
      have hkq : keepFind (buildKeep init.reverse) q = none := by rw [hkfind]; exact hsf
      have : idxGet (compactWrite (dirCreate db.dir (db.lastSegmentIndex + 1))
          (buildKeep init.reverse)).2 q = none := (hcw1 q).mpr hkq
      rw [this]
      rfl
    | some r =>
      obtain ⟨si, pos⟩ := r
      have hkq : keepFind (buildKeep init.reverse) q = some (si, pos) := by
        rw [hkfind]; exact hsf
      rcases hcw2 q si pos hkq with ⟨off, v, hoff, hgood, hreadv⟩
      rw [hoff]
      simp only [Option.map_some']
      have hreadnew : getFromSegment (db.compact).dir (db.lastSegmentIndex + 1) off
          = .ok ⟨q, v, calculateHash v⟩ :=
        getFromSegment_frame hdg_NI hgood
      have hreadold : getFromSegment db.dir si pos = .ok ⟨q, v, calculateHash v⟩ := by
        rcases findPos_mem hsf with ⟨s, hs, hsi, hidx⟩
        have hsseg : s ∈ db.segments := by rw [hdecomp]; exact List.mem_append_left _ hs
        have hsikeys : si ∈ db.dir.map Prod.fst := by
          rw [hI.keysEq, ← hsi]
          exact List.mem_map_of_mem _ hsseg
        rcases dirGet_of_mem_keys hsikeys with ⟨f, hf⟩
        have : dirGet (dirCreate db.dir (db.lastSegmentIndex + 1)) si = dirGet db.dir si := by
          rw [hdc, dirGet_append, hf]
        rw [← getFromSegment_congr pos this]
        exact hreadv
      simp only [hreadnew, hreadold]

end Datastore

namespace Datastore

/-! ## Read-path error shapes and scan termination -/

theorem readNext_ok_le {l d : Bytes} (h : readNext l = .ok d) : d.length ≤ l.length := by
  simp only [readNext] at h
  by_cases h1 : l.length < 4
  · rw [if_pos h1] at h
    simp at h
  · rw [if_neg h1] at h
    by_cases h2 : l.length < u32dec l
    · rw [if_pos h2] at h
      simp at h
    · rw [if_neg h2] at h
      injection h with h
      subst h
      simp only [List.length_take]
      omega

theorem readNext_not_notFound (l : Bytes) : readNext l ≠ .error .notFound := by
  simp only [readNext]
  split_ifs <;> simp

theorem decode_ok_length {d : Bytes} {e : Entry} (h : Entry.decode d = .ok e) :
    8 ≤ d.length := by
  simp only [Entry.decode] at h
  by_cases h1 : d.length < 8
  · rw [if_pos h1] at h
    simp at h
  · omega

theorem decode_not_notFound (d : Bytes) : Entry.decode d ≠ .error .notFound := by
  simp only [Entry.decode]
  split_ifs <;> simp

theorem getFromSegment_ne_notFound (d : Dir) (si pos : Int) :
    getFromSegment d si pos ≠ .error .notFound := by
  unfold getFromSegment
  cases dirGet d si with
  | none => simp
  | some f =>
    simp only []
    split_ifs
    · simp
    · cases hr : readNext (f.drop pos.toNat) with
      | error e =>
        intro hc
        simp only [] at hc
        injection hc with hc
        rw [hc] at hr
        exact readNext_not_notFound _ hr
      | ok data =>
        simp only []
        exact decode_not_notFound data

theorem recoverScan_sufficient :
    ∀ (fuel : Nat) (l : Bytes) (off : Int) (idx : Index),
      l.length < fuel → recoverScan fuel l off idx ≠ none := by
  intro fuel
  induction fuel with
  | zero => intro l off idx h; omega
  | succ n ih =>
    intro l off idx h
    unfold recoverScan
    cases hr : readNext l with
    | error e => cases e <;> simp
    | ok data =>
      cases hd : Entry.decode data with
      | error e =>
        simp only [hd]
        simp
      | ok e =>
        simp only [hd]
        apply ih
        have h1 := readNext_ok_le hr
        have h2 := decode_ok_length hd
        simp only [List.length_drop]
        omega

end Datastore

namespace Datastore

/-- C10: segment recovery terminates on every finite file content: the
`recoverSegment` scan driven by `readNext`, given fuel `length + 1` (one
unit per loop iteration), always reaches a verdict — end-of-file, an error,
or a modelled `Decode` panic (which is what a frame whose `total_size` is
zero or below the minimum produces) — and never exhausts the fuel, for
every byte sequence. -/
theorem recoverScan_terminates (l : Bytes) (off : Int) (idx : Index) :
    recoverScan (l.length + 1) l off idx ≠ none :=
  recoverScan_sufficient (l.length + 1) l off idx (by omega)

/-- C8: `Get(k)` fails with `ErrNotFound` if and only if `k` is absent from
every segment's in-memory index at lookup time, for every database state. -/
theorem get_notFound_iff (db : Db) (k : Bytes) :
    db.get k = .error .notFound ↔ ∀ s ∈ db.segments, idxGet s.index k = none := by
  rw [get_unfold, ← findPos_eq_none_iff]
  cases hf : findPos db.segments k with
  | none => simp
  | some r =>
    obtain ⟨si, pos⟩ := r
    constructor
    · intro hc
      exfalso
      cases hg : getFromSegment db.dir si pos with
      | error e =>
        simp only [hg] at hc
        injection hc with hc
        rw [hc] at hg
        exact getFromSegment_ne_notFound _ _ _ hg
      | ok e =>
        simp only [hg] at hc
        by_cases hh : calculateHash e.value ≠ e.hash
        · rw [if_pos hh] at hc
          cases hc
        · rw [if_neg hh] at hc
          cases hc
    · intro hc
      cases hc

/-- C6: latest-wins — after `Put(k, v₁); Put(k, v₂)` (with no intervening
writes to `k`, following any bounded put history), `Get(k)` returns `v₂`:
the lookup scans segment indexes newest-to-oldest and within a segment the
index holds the most recently appended offset for the key. -/
theorem latest_wins (sz : Int) (hist : List (Bytes × Bytes)) (k v1 v2 : Bytes)
    (hbh : BoundedHist hist) (hb1 : WFbound k v1) (hb2 : WFbound k v2) :
    (runPuts (freshDb sz) (hist ++ [(k, v1), (k, v2)])).get k = .ok v2 := by
  have hbh' : BoundedHist (hist ++ [(k, v1), (k, v2)]) := by
    intro p hp
    rcases List.mem_append.mp hp with h | h
    · exact hbh p h
    · simp only [List.mem_cons, List.mem_singleton] at h
      rcases h with h | h | h
      · rw [h]; exact hb1
      · rw [h]; exact hb2
      · cases h
  have hI := runPuts_inv sz _ hbh'
  rw [hI.sem k]
  have hlat : latestVal (hist ++ [(k, v1), (k, v2)]) k = some v2 := by
    rw [latestVal_append]
    have h2 : latestVal [(k, v1), (k, v2)] k = some v2 := by
      simp [latestVal]
    rw [h2]
  rw [hlat]
  rfl

/-- C2: for every bounded put history, if the store holds at least two
segments then `Compact()` leaves exactly two files in the directory (the
new compacted segment and the untouched active segment) and afterwards
`Get(k)` still returns the latest put value for every key `k` (and
`ErrNotFound` for keys never put); with fewer than two segments `Compact()`
changes nothing. -/
theorem compact_correct (sz : Int) (hist : List (Bytes × Bytes)) (hbh : BoundedHist hist) :
    (2 ≤ (runPuts (freshDb sz) hist).segments.length →
      ((runPuts (freshDb sz) hist).compact.dir.length = 2 ∧
        ∀ q, (runPuts (freshDb sz) hist).compact.get q = exceptOf (latestVal hist q))) ∧
    ((runPuts (freshDb sz) hist).segments.length < 2 →
      (runPuts (freshDb sz) hist).compact = runPuts (freshDb sz) hist) := by
  constructor
  · intro h2
    exact compact_spec (runPuts_inv sz hist hbh) h2
  · intro hlt
    unfold Db.compact
    rw [if_pos hlt]

/-- C3: codec round trip — decoding the encoding of `Entry{key: k, value: v}`
yields the entry `⟨k, v, H(v)⟩` where `H(v)` is the 40-character hex SHA-1
digest of `v`, and `Encode` computes the hash from the value at encode
time, ignoring any caller-supplied hash field (the bound keeps the frame's
length fields below the `uint32` truncation limit). -/
theorem codec_roundtrip (k v h0 : Bytes) (hb : WFbound k v) :
    Entry.decode (Entry.mk k v h0).encode = .ok ⟨k, v, calculateHash v⟩ ∧
    (calculateHash v).length = 40 ∧
    (Entry.mk k v h0).encode = (Entry.mk k v (calculateHash v)).encode := by
  exact ⟨decode_encode (Entry.mk k v h0) hb, calculateHash_length v, rfl⟩

/-- C5: integrity check — whenever the lookup locates a stored record and
reads back an entry whose recomputed digest differs from the stored hash
(as happens when the value bytes were altered on disk), `Get(k)` fails with
`ErrHashMismatch`; when the recomputed digest equals the stored hash, `Get`
returns the value. -/
theorem get_hash_check (db : Db) (k : Bytes) (si pos : Int) (e : Entry)
    (hpos : db.getPos k = .ok (si, pos))
    (hread : getFromSegment db.dir si pos = .ok e) :
    (calculateHash e.value ≠ e.hash → db.get k = .error .hashMismatch) ∧
    (calculateHash e.value = e.hash → db.get k = .ok e.value) := by
  constructor
  · intro hne
    unfold Db.get
    simp only [hpos, hread]
    rw [if_pos hne]
  · intro heq
    unfold Db.get
    simp only [hpos, hread]
    rw [if_neg (by simp [heq])]

end Datastore

namespace Datastore

theorem setLastIndex_length (segs : List Segment) (k : Bytes) (pos : Int) :
    (setLastIndex segs k pos).length = segs.length := by
  induction segs with
  | nil => rfl
  | cons a l ih =>
    cases l with
    | nil => rfl
    | cons b l' =>
      show (a :: setLastIndex (b :: l') k pos).length = _
      simp only [List.length_cons]
      rw [ih]
      simp

/-- C7: the rollover decision — for a reachable database and any put, if the
active file's current size plus the entry's encoded length strictly exceeds
`segmentSize`, a new segment file with the next integer index is created and
becomes the append target before the record is written (the new file's
whole contents are exactly the one record); when the record at most fills
the budget (including exactly filling it), no rollover happens and the
record is appended to the current active file — so enough records produce
more than one on-disk file. -/
theorem rollover_behavior (sz : Int) (hist : List (Bytes × Bytes)) (db : Db) (k v : Bytes)
    (hdb : db = runPuts (freshDb sz) hist) (hbh : BoundedHist hist) :
    (((((dirGet db.dir db.outIdx).getD []).length : Int)
        + (Entry.mk k v (calculateHash v)).getLength > db.segmentSize) →
      (db.putOp k v).segments.length = db.segments.length + 1 ∧
      (db.putOp k v).outIdx = db.lastSegmentIndex + 1 ∧
      (db.putOp k v).lastSegmentIndex = db.lastSegmentIndex + 1 ∧
      dirGet (db.putOp k v).dir (db.lastSegmentIndex + 1)
        = some (Entry.mk k v (calculateHash v)).encode) ∧
    (((((dirGet db.dir db.outIdx).getD []).length : Int)
        + (Entry.mk k v (calculateHash v)).getLength ≤ db.segmentSize) →
      (db.putOp k v).segments.length = db.segments.length ∧
      (db.putOp k v).outIdx = db.outIdx ∧
      dirGet (db.putOp k v).dir db.outIdx
        = some (((dirGet db.dir db.outIdx).getD []) ++ (Entry.mk k v (calculateHash v)).encode)) := by
  subst hdb
  have hI := runPuts_inv sz hist hbh
  have hnotmem : ((runPuts (freshDb sz) hist).lastSegmentIndex + 1)
      ∉ (runPuts (freshDb sz) hist).dir.map Prod.fst := by
    rw [hI.keysEq]
    intro hc
    rcases List.mem_map.mp hc with ⟨s, hs, hsi⟩
    have := hI.idxLe s hs
    omega
  have hdirnone : dirGet (runPuts (freshDb sz) hist).dir
      ((runPuts (freshDb sz) hist).lastSegmentIndex + 1) = none :=
    (dirGet_eq_none_iff _ _).mpr hnotmem
  have hdc : dirCreate (runPuts (freshDb sz) hist).dir
      ((runPuts (freshDb sz) hist).lastSegmentIndex + 1)
      = (runPuts (freshDb sz) hist).dir
        ++ [((runPuts (freshDb sz) hist).lastSegmentIndex + 1, [])] := by
    simp [dirCreate, hdirnone]
  have hlastmem : ((runPuts (freshDb sz) hist).segments.getLastD ⟨0, []⟩)
      ∈ (runPuts (freshDb sz) hist).segments := by
    rw [segs_decomp hI.segsNE]
    simp
  obtain ⟨f, hf⟩ := dirGet_of_mem_keys
    (show (runPuts (freshDb sz) hist).outIdx ∈ (runPuts (freshDb sz) hist).dir.map Prod.fst by
      rw [hI.keysEq, hI.outLast]
      exact List.mem_map_of_mem _ hlastmem)
  constructor
  · intro hroll
    unfold Db.putOp
    simp only [if_pos hroll]
    refine ⟨?_, by trivial, by trivial, ?_⟩
    · show (setLastIndex (runPuts (freshDb sz) hist).createSegment.segments k _).length = _
      rw [setLastIndex_length]
      show ((runPuts (freshDb sz) hist).segments ++ [_]).length = _
      simp
    · have hgetNI : dirGet (runPuts (freshDb sz) hist).createSegment.dir
          ((runPuts (freshDb sz) hist).lastSegmentIndex + 1) = some [] := by
        show dirGet (dirCreate _ _) _ = _
        rw [hdc, dirGet_append, hdirnone]
        simp [dirGet]
      have hself := dirGet_dirAppend_self (Entry.mk k v (calculateHash v)).encode hgetNI
      simpa using hself
  · intro hle
    unfold Db.putOp
    simp only [if_neg (not_lt.mpr hle)]
    refine ⟨?_, by trivial, ?_⟩
    · show (setLastIndex (runPuts (freshDb sz) hist).segments k _).length = _
      rw [setLastIndex_length]
    · have hself := dirGet_dirAppend_self (Entry.mk k v (calculateHash v)).encode hf
      rw [hf]
      simpa using hself


/-- C4 counterexample: a frame whose `total_size` field is zero (smaller
than the minimum frame size) makes `readNext` SUCCEED with an empty buffer,
and `Decode` then hits a slice access out of range — a Go runtime panic
(modelled as `DbErr.panicSlice`), i.e. a crash, not a corrupt-record error
returned to the caller. -/
theorem c4_zero_frame_panics :
    readNext [0, 0, 0, 0] = .ok [] ∧ Entry.decode [] = .error .panicSlice := by
  decide

/-- C4 (amended): a truncated stream (fewer than four bytes to peek, or
fewer than `total_size` bytes to read in full) makes `readNext` return an
EOF-style error; but a frame that `readNext` successfully returns is
decoded by `Entry.Decode` into a panic (an out-of-range slice access, a
crash rather than a returned error) exactly when its length fields are
inconsistent with its size — in particular when `total_size` was below the
minimum frame size. -/
theorem c4_read_path (l : Bytes) :
    (l.length < 4 → readNext l = .error .eof) ∧
    (4 ≤ l.length → l.length < u32dec l → readNext l = .error .unexpectedEof) ∧
    (∀ d, readNext l = .ok d →
      (Entry.decode d = .error .panicSlice ↔ ¬ frameConsistent d)) := by
  refine ⟨?_, ?_, ?_⟩
  · intro h
    simp only [readNext]
    rw [if_pos h]
  · intro h4 hsz
    simp only [readNext]
    rw [if_neg (not_lt.mpr h4), if_pos hsz]
  · intro d _
    unfold frameConsistent
    simp only [Entry.decode]
    by_cases h1 : d.length < 8
    · rw [if_pos h1]
      constructor
      · intro _ hc
        rcases hc with ⟨hc8, _⟩
        omega
      · intro _
        rfl
    · rw [if_neg h1]
      by_cases h2 : d.length < u32dec (d.drop 4) + 8
      · rw [if_pos h2]
        have hv : u32dec (d.drop (u32dec (d.drop 4) + 8)) = 0 := by
          have hnil : d.drop (u32dec (d.drop 4) + 8) = [] := List.drop_eq_nil_of_le (by omega)
          rw [hnil]
          rfl
        constructor
        · intro _ hc
          rcases hc with ⟨hc8, hcv⟩
          omega
        · intro _
          rfl
      · rw [if_neg h2]
        by_cases h3 : d.length < u32dec (d.drop 4) + 12
        · rw [if_pos h3]
          constructor
          · intro _ hc
            rcases hc with ⟨hc8, hcv⟩
            omega
          · intro _
            rfl
        · rw [if_neg h3]
          by_cases hv4 : d.length < u32dec (d.drop 4) + 12 + u32dec (d.drop (u32dec (d.drop 4) + 8))
          · rw [if_pos hv4]
            constructor
            · intro _ hc
              rcases hc with ⟨hc8, hcv⟩
              omega
            · intro _
              rfl
          · rw [if_neg hv4]
            constructor
            · intro hc
              cases hc
            · intro hc
              exact absurd ⟨by omega, by omega⟩ hc

end Datastore

namespace Datastore

/-- C1 (code bug): recovery does not preserve every key's latest value once
a compaction has happened.  Evaluating the model at the failing input:
with `segmentSize = 60`, after `Put("a","1"); Put("a","2")` the two puts
live in segments 0 and 1; `Compact()` folds segment 0 into a NEW segment
with file index 2 — a higher index than the active segment's file 1 —
while keeping the roster order `[compacted, active]` correct in memory
(`Get` still returns "2", and exactly two files remain).  After `Close()`
and `NewDb` on the same directory, recovery sorts files ascending by their
trailing integer, so the compacted file 2 is treated as the NEWEST segment
and shadows the younger value: `Get("a")` now returns the stale "1". -/
theorem c1_recovery_loses_latest :
    newDb [] 60 = .ok (freshDb 60) ∧
    (((freshDb 60).putOp [97] [49]).putOp [97] [50]).get [97] = .ok [50] ∧
    ((((freshDb 60).putOp [97] [49]).putOp [97] [50]).compact).get [97] = .ok [50] ∧
    ((((freshDb 60).putOp [97] [49]).putOp [97] [50]).compact).dir.length = 2 ∧
    (match newDb (((((freshDb 60).putOp [97] [49]).putOp [97] [50]).compact).dir) 60 with
     | .ok r => r.get [97]
     | .error e => .error e) = .ok [49] ∧
    ([49] : Bytes) ≠ [50] := by
  decide

end Datastore

namespace Balancer

theorem trafficOf_nonneg (t : List (String × Int)) (hnn : ∀ p ∈ t, 0 ≤ p.2)
    (s : String) : 0 ≤ trafficOf t s := by
  induction t with
  | nil => simp [trafficOf]
  | cons p rest ih =>
    obtain ⟨a, n⟩ := p
    show 0 ≤ (if a = s then n else trafficOf rest s)
    by_cases h : a = s
    · rw [if_pos h]
      exact hnn (a, n) (List.mem_cons_self _ _)
    · rw [if_neg h]
      exact ih fun q hq => hnn q (List.mem_cons_of_mem _ hq)

theorem chooseStep_of_nonneg (t : List (String × Int)) (b server : String)
    (hb : 0 ≤ trafficOf t b) :
    chooseStep t (b, trafficOf t b) server =
      if trafficOf t server < trafficOf t b
        then (server, trafficOf t server) else (b, trafficOf t b) := by
  show (if trafficOf t b = -1 ∨ trafficOf t server < trafficOf t b then _ else _) = _
  by_cases hlt : trafficOf t server < trafficOf t b
  · rw [if_pos (Or.inr hlt), if_pos hlt]
  · rw [if_neg ?_, if_neg hlt]
    rintro (hsen | h)
    · omega
    · exact hlt h

theorem chooseFold_min (t : List (String × Int)) (hnn : ∀ p ∈ t, 0 ≤ p.2) :
    ∀ (l : List String) (b : String),
      ∃ c, l.foldl (chooseStep t) (b, trafficOf t b) = (c, trafficOf t c) ∧
        ((c = b ∧ ∀ s ∈ l, trafficOf t b ≤ trafficOf t s) ∨
         (∃ pre post, l = pre ++ c :: post ∧ trafficOf t c < trafficOf t b ∧
           (∀ s ∈ pre, trafficOf t c < trafficOf t s) ∧
           ∀ s ∈ post, trafficOf t c ≤ trafficOf t s)) := by
  intro l
  induction l with
  | nil =>
    intro b
    exact ⟨b, rfl, Or.inl ⟨rfl, by simp⟩⟩
  | cons s rest ih =>
    intro b
    have hstep := chooseStep_of_nonneg t b s (trafficOf_nonneg t hnn b)
    by_cases hsb : trafficOf t s < trafficOf t b
    · obtain ⟨c, hc, hspec⟩ := ih s
      refine ⟨c, ?_, ?_⟩
      · rw [List.foldl_cons, hstep, if_pos hsb]
        exact hc
      · rcases hspec with ⟨hcb, hall⟩ | ⟨pre, post, hrest, hlt, hpre, hpost⟩
        · subst hcb
          exact Or.inr ⟨[], rest, by simp, hsb, by simp, hall⟩
        · refine Or.inr ⟨s :: pre, post, by rw [hrest]; rfl, lt_trans hlt hsb, ?_, hpost⟩
          intro s' hs'
          rcases List.mem_cons.mp hs' with h | h
          · rw [h]; exact hlt
          · exact hpre s' h
    · have hbs : trafficOf t b ≤ trafficOf t s := not_lt.mp hsb
      obtain ⟨c, hc, hspec⟩ := ih b
      refine ⟨c, ?_, ?_⟩
      · rw [List.foldl_cons, hstep, if_neg hsb]
        exact hc
      · rcases hspec with ⟨hcb, hall⟩ | ⟨pre, post, hrest, hlt, hpre, hpost⟩
        · subst hcb
          refine Or.inl ⟨rfl, ?_⟩
          intro s' hs'
          rcases List.mem_cons.mp hs' with h | h
          · rw [h]; exact hbs
          · exact hall s' h
        · refine Or.inr ⟨s :: pre, post, by rw [hrest]; rfl, hlt, ?_, hpost⟩
          intro s' hs'
          rcases List.mem_cons.mp hs' with h | h
          · rw [h]; exact lt_of_lt_of_le hlt hbs
          · exact hpre s' h

/-- C9, counterexample to the original claim: over the full int64 counter
domain the `minTraffic == -1` sentinel of `chooseServer` collides with a
stored counter equal to -1.  With healthy pool `[s1, s2]` and counters
`s1 : -1, s2 : 5`, the first iteration selects `s1` and sets
`minTraffic = -1`, so the sentinel fires again on `s2` and the selector
returns `s2` even though the counter of `s1` is strictly smaller. -/
theorem c9_sentinel_breaks_min :
    chooseServer ["s1", "s2"] [("s1", -1), ("s2", 5)] = "s2" ∧
    "s1" ∈ ["s1", "s2"] ∧
    trafficOf [("s1", -1), ("s2", 5)] "s1"
      < trafficOf [("s1", -1), ("s2", 5)] "s2" :=
  ⟨rfl, by decide, by decide⟩

/-- C9 (amended: the minimum-traffic property is restricted to maps whose
recorded counters are all nonnegative, which covers every reachable state
since `serverTraffic` only ever accumulates nonnegative forwarded byte
counts): `chooseServer` of an empty healthy pool is the empty string, and
of a nonempty healthy pool is a backend of the pool whose forwarded-bytes
counter is minimal and which strictly beats every backend listed before
it — ties go to the backend encountered first in healthy-pool order. -/
theorem chooseServer_min (healthy : List String) (t : List (String × Int))
    (hnn : ∀ p ∈ t, 0 ≤ p.2) :
    chooseServer [] t = "" ∧
    (healthy ≠ [] → ∃ b pre post, chooseServer healthy t = b ∧
      healthy = pre ++ b :: post ∧
      (∀ s ∈ healthy, trafficOf t b ≤ trafficOf t s) ∧
      ∀ s ∈ pre, trafficOf t b < trafficOf t s) := by
  constructor
  · rfl
  · intro hne
    cases healthy with
    | nil => exact absurd rfl hne
    | cons s rest =>
      obtain ⟨c, hc, hspec⟩ := chooseFold_min t hnn rest s
      have hchoose : chooseServer (s :: rest) t = c := by
        show ((s :: rest).foldl (chooseStep t) ("", -1)).1 = c
        have hfirst : chooseStep t ("", -1) s = (s, trafficOf t s) := by
          show (if (-1 : Int) = -1 ∨ _ then _ else _) = _
          rw [if_pos (Or.inl rfl)]
        rw [List.foldl_cons, hfirst, hc]
      rcases hspec with ⟨hcb, hall⟩ | ⟨pre, post, hrest, hlt, hpre, hpost⟩
      · subst hcb
        refine ⟨c, [], rest, hchoose, by simp, ?_, by simp⟩
        intro s' hs'
        rcases List.mem_cons.mp hs' with h | h
        · rw [h]
        · exact hall s' h
      · refine ⟨c, s :: pre, post, hchoose, by rw [hrest]; rfl, ?_, ?_⟩
        · intro s' hs'
          rcases List.mem_cons.mp hs' with h | h
          · rw [h]; exact le_of_lt hlt
          · rw [hrest] at h
            rcases List.mem_append.mp h with h | h
            · exact le_of_lt (hpre s' h)
            · rcases List.mem_cons.mp h with h | h
              · rw [h]
              · exact hpost s' h
        · intro s' hs'
          rcases List.mem_cons.mp hs' with h | h
          · rw [h]; exact hlt
          · exact hpre s' h

end Balancer

namespace Datastore


theorem latest_wins_witness :
    (runPuts (freshDb 100) ([] ++ [([107], [118]), ([107], [119])])).get [107] = .ok [119] :=
  latest_wins 100 [] [107] [118] [119] (by decide) (by decide) (by decide)

theorem compact_correct_witness :
    (runPuts (freshDb 60) [([97], [49]), ([97], [50])]).compact.dir.length = 2 ∧
    (runPuts (freshDb 60) [([97], [49]), ([97], [50])]).compact.get [97]
      = exceptOf (latestVal [([97], [49]), ([97], [50])] [97]) :=
  ⟨((compact_correct 60 [([97], [49]), ([97], [50])] (by decide)).1 (by decide)).1,
   ((compact_correct 60 [([97], [49]), ([97], [50])] (by decide)).1 (by decide)).2 [97]⟩

theorem codec_roundtrip_witness :
    Entry.decode (Entry.mk [107] [118] [9]).encode = .ok ⟨[107], [118], calculateHash [118]⟩ ∧
    (calculateHash [118]).length = 40 ∧
    (Entry.mk [107] [118] [9]).encode = (Entry.mk [107] [118] (calculateHash [118])).encode :=
  codec_roundtrip [107] [118] [9] (by decide)

theorem c4_read_path_witness :
    readNext ([] : Bytes) = .error .eof ∧
    readNext [10, 0, 0, 0] = .error .unexpectedEof ∧
    (Entry.decode [] = .error .panicSlice ↔ ¬ frameConsistent []) :=
  ⟨(c4_read_path []).1 (by decide),
   (c4_read_path [10, 0, 0, 0]).2.1 (by decide) (by decide),
   (c4_read_path [0, 0, 0, 0]).2.2 [] (by decide)⟩

theorem get_hash_check_witness :
    (Db.mk [(0, ((Entry.mk [107] [118] []).encode).set 13 119)] 100 0 0
      [⟨0, [([107], 0)]⟩]).get [107] = .error .hashMismatch :=
  (get_hash_check
    (Db.mk [(0, ((Entry.mk [107] [118] []).encode).set 13 119)] 100 0 0 [⟨0, [([107], 0)]⟩])
    [107] 0 0 ⟨[107], [119], calculateHash [118]⟩ (by decide) (by decide)).1 (by decide)

theorem rollover_behavior_witness :
    ((runPuts (freshDb 60) [([97], [49])]).putOp [98] [50]).segments.length
        = (runPuts (freshDb 60) [([97], [49])]).segments.length + 1 ∧
    ((runPuts (freshDb 60) [([97], [49])]).putOp [98] [50]).outIdx
        = (runPuts (freshDb 60) [([97], [49])]).lastSegmentIndex + 1 ∧
    ((runPuts (freshDb 60) [([97], [49])]).putOp [98] [50]).lastSegmentIndex
        = (runPuts (freshDb 60) [([97], [49])]).lastSegmentIndex + 1 ∧
    dirGet ((runPuts (freshDb 60) [([97], [49])]).putOp [98] [50]).dir
        ((runPuts (freshDb 60) [([97], [49])]).lastSegmentIndex + 1)
      = some (Entry.mk [98] [50] (calculateHash [50])).encode :=
  (rollover_behavior 60 [([97], [49])] _ [98] [50] rfl (by decide)).1 (by decide)

end Datastore

namespace Balancer

theorem chooseServer_min_witness :
    ∃ b pre post, chooseServer ["server1", "server3"]
        [("server1", 100), ("server2", 10), ("server3", 200)] = b ∧
      ["server1", "server3"] = pre ++ b :: post ∧
      (∀ s ∈ ["server1", "server3"],
        trafficOf [("server1", 100), ("server2", 10), ("server3", 200)] b
          ≤ trafficOf [("server1", 100), ("server2", 10), ("server3", 200)] s) ∧
      ∀ s ∈ pre, trafficOf [("server1", 100), ("server2", 10), ("server3", 200)] b
          < trafficOf [("server1", 100), ("server2", 10), ("server3", 200)] s :=
  (chooseServer_min ["server1", "server3"]
    [("server1", 100), ("server2", 10), ("server3", 200)] (by decide)).2 (by decide)

end Balancer
